import Mathlib

/-!
# BlackjackSim: card, shoe, hand and round model

A shallow embedding of `blackjackSim.cpp`.

* `Card`, `Shoe` and `BlackjackHand` mirror the three C++ classes field by field.
* `std::vector<Card>` is a `List Card`; `push_back` appends, `back`/`pop_back` take the last
  element.
* `rand()` is a sequence `rand : Nat → Nat` together with a cursor counting the calls made so far.
* `int` is `Int`. The product `numDecks * 52` of a number typed by the user is wrapped to 32 bits
  (`toInt32`). Hand totals grow by at most 10 per card, so they stay below 2^31 for any hand of
  fewer than 214 million cards, and vector sizes are bounded by the shoe; those are not wrapped.
* `double` amounts (bet, total winnings) live in an arbitrary type `M` that has `+`, `-`, `*` and
  the literals `1.5` and `2`; nothing about rounding is assumed.
* Console output is not modelled; console input is the list of lines still to be read. A
  session is the list of its rounds, each with its bet and the lines its player loop may read.
* A run that does not produce a result ends in a `Stop`.
-/

namespace BlackjackSim

/-- The constant `HAND_VALUE_LIMIT`. -/
def HAND_VALUE_LIMIT : Int := 21

/-- The constant `DEALER_RESOLUTION_LIMIT`. -/
def DEALER_RESOLUTION_LIMIT : Int := 17

/-- Reasons for which a run yields no result. -/
inductive Stop where
  /-- Thrown by `vector::resize` when asked for a negative (hence huge unsigned) size. -/
  | lengthError
  /-- Thrown by `vector::at` on an index outside the vector. -/
  | outOfRange
  /-- Use of `back()` / `pop_back()` on an empty vector (undefined behaviour). -/
  | emptyShoe
  /-- The program waits for a line of input that never comes. -/
  | noInput
  /-- The bounded unrolling of a `while` loop was too short. -/
  | outOfFuel
deriving DecidableEq, Repr

/-- Two's complement reading of an integer as a 32-bit `int`. -/
def toInt32 (x : Int) : Int := (x + 2147483648) % 4294967296 - 2147483648

/-! ## Card -/

/-- Class `Card`: blackjack value, rank and suit. -/
structure Card where
  value : Int
  rank : String
  suit : String
deriving DecidableEq, Repr

/-- Default constructor `Card()`. -/
def Card.default : Card := { value := 0, rank := "NULL", suit := "NULL" }

/-- Method `Card::setTo(int cardNum)`. The switch is on `cardNum % 13`, evaluated only for
`1 ≤ cardNum ≤ 52`, where C++ and Lean remainders agree. -/
def Card.setTo (c : Card) (cardNum : Int) : Card :=
  if cardNum ≥ 1 ∧ cardNum ≤ 52 then
    let suit :=
      if cardNum ≤ 13 then "Spades"
      else if cardNum ≤ 26 then "Hearts"
      else if cardNum ≤ 39 then "Diamonds"
      else "Clubs"
    match cardNum % 13 with
    | 1 => { value := 1, rank := "Ace", suit := suit }
    | 2 => { value := 2, rank := "Two", suit := suit }
    | 3 => { value := 3, rank := "Three", suit := suit }
    | 4 => { value := 4, rank := "Four", suit := suit }
    | 5 => { value := 5, rank := "Five", suit := suit }
    | 6 => { value := 6, rank := "Six", suit := suit }
    | 7 => { value := 7, rank := "Seven", suit := suit }
    | 8 => { value := 8, rank := "Eight", suit := suit }
    | 9 => { value := 9, rank := "Nine", suit := suit }
    | 10 => { value := 10, rank := "Ten", suit := suit }
    | 11 => { value := 10, rank := "Jack", suit := suit }
    | 12 => { value := 10, rank := "Queen", suit := suit }
    | 0 => { value := 10, rank := "King", suit := suit }
    | _ => { c with suit := suit }
  else c

/-- Getter `Card::getValue`. -/
def Card.getValue (c : Card) : Int := c.value

/-- Getter `Card::getRank`. -/
def Card.getRank (c : Card) : String := c.rank

/-- Getter `Card::getSuit`. -/
def Card.getSuit (c : Card) : String := c.suit

/-- The card `Card().setTo(n)`, as every card of a shoe is made. -/
def deckCard (n : Int) : Card := Card.default.setTo n

/-! ## Vector access -/

/-- Read through `vector::at(i)`. -/
def vecAt (cards : List Card) (i : Int) : Except Stop Card :=
  if 0 ≤ i then
    match cards.get? i.toNat with
    | some c => .ok c
    | none => .error .outOfRange
  else .error .outOfRange

/-- Write through `vector::at(i) = c`. -/
def vecSet (cards : List Card) (i : Int) (c : Card) : Except Stop (List Card) :=
  if 0 ≤ i ∧ i.toNat < cards.length then .ok (cards.set i.toNat c)
  else .error .outOfRange

/-! ## Shoe -/

/-- Class `Shoe`: the private fields `numCards` and `cards`. -/
structure Shoe where
  numCards : Int
  cards : List Card
deriving DecidableEq, Repr

/-- Constructor `Shoe(int numDecks)`. `numDecks * 52` is an `int` product; `resize` with a
negative count throws. Slot `i` is then set to card `i % 52 + 1`. -/
def Shoe.new (numDecks : Int) : Except Stop Shoe :=
  let numCards := toInt32 (numDecks * 52)
  if numCards < 0 then .error .lengthError
  else
    .ok { numCards := numCards
          cards := (List.range numCards.toNat).map
            (fun i : Nat => Card.default.setTo ((i : Int) % 52 + 1)) }

/-- Method `Shoe::setCards`. -/
def Shoe.setCards (_s : Shoe) (newCards : List Card) : Shoe :=
  { numCards := (newCards.length : Int), cards := newCards }

/-- One iteration of the `for` loop of `Shoe::shuffle` at index `i`; `acc` holds the vector and
the number of `rand()` calls made so far. -/
def Shoe.shuffleStep (rand : Nat → Nat) (numCards : Int) (acc : List Card × Nat) (i : Nat) :
    Except Stop (List Card × Nat) :=
  let randIdx : Int := (rand acc.2 : Int) % (numCards - (i : Int)) + (i : Int)
  if randIdx = (i : Int) then .ok (acc.1, acc.2 + 1)
  else do
    let tempCard ← vecAt acc.1 (i : Int)
    let other ← vecAt acc.1 randIdx
    let cards1 ← vecSet acc.1 (i : Int) other
    let cards2 ← vecSet cards1 randIdx tempCard
    pure (cards2, acc.2 + 1)

/-- Method `Shoe::shuffle`: `i` runs over `0 .. numCards - 2`. -/
def Shoe.shuffle (rand : Nat → Nat) (s : Shoe) (randPos : Nat) : Except Stop (Shoe × Nat) := do
  let r ← (List.range (s.numCards - 1).toNat).foldlM (Shoe.shuffleStep rand s.numCards)
    (s.cards, randPos)
  pure ({ numCards := s.numCards, cards := r.1 }, r.2)

/-- Method `Shoe::dealCard`. -/
def Shoe.dealCard (s : Shoe) : Except Stop (Card × Shoe) :=
  match s.cards.getLast? with
  | none => .error .emptyShoe
  | some cardToReturn =>
    .ok (cardToReturn, { numCards := s.numCards - 1, cards := s.cards.dropLast })

/-- Method `Shoe::getNumCards`. -/
def Shoe.getNumCards (s : Shoe) : Int := s.numCards

/-- Method `Shoe::refillIfEmpty`. Returns the shoe, the passed vector, the `rand()` cursor and
whether the reshuffle message was printed. -/
def Shoe.refillIfEmpty (rand : Nat → Nat) (s : Shoe) (newCards : List Card) (randPos : Nat) :
    Except Stop (Shoe × List Card × Nat × Bool) :=
  if s.numCards = 0 then do
    let s1 := s.setCards newCards
    let s2 : Shoe := { s1 with numCards := (newCards.length : Int) }
    let r ← s2.shuffle rand randPos
    pure (r.1, [], r.2, true)
  else pure (s, newCards, randPos, false)

/-! ## BlackjackHand -/

/-- Class `BlackjackHand`: the private fields `handValue`, `cards` and `soft`. -/
structure BlackjackHand where
  handValue : Int
  cards : List Card
  soft : Bool
deriving DecidableEq, Repr

/-- Constructor `BlackjackHand()`. It sets `handValue` only; the argument is whatever `soft`
happens to hold. -/
def BlackjackHand.new (soft : Bool) : BlackjackHand :=
  { handValue := 0, cards := [], soft := soft }

/-- First loop of `addCard`: the sum of the card values and the number of cards of rank Ace. -/
def BlackjackHand.sumLoop (cards : List Card) : Int × Nat :=
  cards.foldl
    (fun acc c => (acc.1 + c.getValue, if c.getRank = "Ace" then acc.2 + 1 else acc.2)) (0, 0)

/-- Second loop of `addCard`, with `n` iterations left: add 10 and mark soft while the value is
at most 11, else break. -/
def BlackjackHand.aceLoop : Nat → Int × Bool → Int × Bool
  | 0, st => st
  | n + 1, st => if st.1 ≤ 11 then BlackjackHand.aceLoop n (st.1 + 10, true) else st

/-- Method `BlackjackHand::addCard`. -/
def BlackjackHand.addCard (h : BlackjackHand) (newCard : Card) : BlackjackHand :=
  let cards := h.cards ++ [newCard]
  let sums := BlackjackHand.sumLoop cards
  let res := BlackjackHand.aceLoop sums.2 (sums.1, false)
  { handValue := res.1, cards := cards, soft := res.2 }

/-- Method `BlackjackHand::value`. -/
def BlackjackHand.value (h : BlackjackHand) : Int := h.handValue

/-- Method `BlackjackHand::isSoft`. -/
def BlackjackHand.isSoft (h : BlackjackHand) : Bool := h.soft

/-- Method `BlackjackHand::getCards`. -/
def BlackjackHand.getCards (h : BlackjackHand) : List Card := h.cards

/-! ## The table and one round of `main` -/

/-- The locals of `main` that every draw touches: the shoe, `discardedCards`, and the number of
`rand()` calls made so far. -/
structure Table where
  shoe : Shoe
  discardedCards : List Card
  randPos : Nat
deriving DecidableEq, Repr

/-- Function `dealCardAndRefillShoeIfEmpty(hand, shoe, cardsForRefill)`. -/
def dealCardAndRefillShoeIfEmpty (rand : Nat → Nat) (hand : BlackjackHand) (t : Table) :
    Except Stop (BlackjackHand × Table) := do
  let d ← t.shoe.dealCard
  let hand1 := hand.addCard d.1
  let r ← d.2.refillIfEmpty rand t.discardedCards t.randPos
  pure (hand1, { shoe := r.1, discardedCards := r.2.1, randPos := r.2.2.1 })

/-- The locals of `main` during one pass of its outer loop. -/
structure Round (M : Type) where
  table : Table
  userHand : BlackjackHand
  dealerHand : BlackjackHand
  bet : M
  totalWinnings : M
  blackjack : Bool
  bust : Bool
deriving DecidableEq, Repr

section Engine

variable {M : Type} [Add M] [Sub M] [Mul M] [OfScientific M] [OfNat M 2]

/-- Start of a pass of the outer loop: fresh hands, both flags false, the bet just read. The two
booleans are the unset `soft` fields of the fresh hands. -/
def Round.start (t : Table) (totalWinnings bet : M) (userSoft dealerSoft : Bool) : Round M :=
  { table := t
    userHand := BlackjackHand.new userSoft
    dealerHand := BlackjackHand.new dealerSoft
    bet := bet
    totalWinnings := totalWinnings
    blackjack := false
    bust := false }

/-- The three opening draws: one card to the dealer, then two to the user. -/
def initialDeal (rand : Nat → Nat) (r : Round M) : Except Stop (Round M) := do
  let d ← dealCardAndRefillShoeIfEmpty rand r.dealerHand r.table
  let u1 ← dealCardAndRefillShoeIfEmpty rand r.userHand d.2
  let u2 ← dealCardAndRefillShoeIfEmpty rand u1.1 u1.2
  pure { r with dealerHand := d.1, userHand := u2.1, table := u2.2 }

/-- The check `if (userHand.value() == HAND_VALUE_LIMIT)` right after the opening draws. -/
def blackjackCheck (r : Round M) : Round M :=
  if r.userHand.value = HAND_VALUE_LIMIT then
    { r with blackjack := true, totalWinnings := r.totalWinnings + r.bet * 1.5 }
  else r

/-- The player's `while (true)` loop. `inputs` are the lines `getline` will return; a line that is
none of the three commands is read and asked for again. The result carries the unread lines. -/
def playerLoop (rand : Nat → Nat) : Round M → List String → Except Stop (Round M × List String)
  | r, inputs =>
    if r.userHand.value = HAND_VALUE_LIMIT then .ok (r, inputs)
    else if r.userHand.value > HAND_VALUE_LIMIT then
      .ok ({ r with bust := true, totalWinnings := r.totalWinnings - r.bet }, inputs)
    else
      match inputs with
      | [] => .error .noInput
      | userInput :: rest =>
        if userInput = "hit" then do
          let d ← dealCardAndRefillShoeIfEmpty rand r.userHand r.table
          playerLoop rand { r with userHand := d.1, table := d.2 } rest
        else if userInput = "stand" then .ok (r, rest)
        else if userInput = "double down" then do
          let bet := r.bet * 2
          let d ← dealCardAndRefillShoeIfEmpty rand r.userHand r.table
          if d.1.value > HAND_VALUE_LIMIT then
            .ok ({ r with bet := bet, userHand := d.1, table := d.2, bust := true,
                          totalWinnings := r.totalWinnings - bet }, rest)
          else .ok ({ r with bet := bet, userHand := d.1, table := d.2 }, rest)
        else playerLoop rand r rest

/-- The condition of the dealer's `while` loop. -/
def dealerMustDraw (r : Round M) : Bool :=
  !r.bust && (decide (r.dealerHand.value < DEALER_RESOLUTION_LIMIT) ||
    (decide (r.dealerHand.value = DEALER_RESOLUTION_LIMIT) && r.dealerHand.isSoft))

/-- The dealer's `while` loop, unrolled at most `fuel` times. -/
def dealerLoop (rand : Nat → Nat) : Nat → Round M → Except Stop (Round M)
  | fuel, r =>
    if dealerMustDraw r then
      match fuel with
      | 0 => .error .outOfFuel
      | fuel + 1 => do
        let d ← dealCardAndRefillShoeIfEmpty rand r.dealerHand r.table
        dealerLoop rand fuel { r with dealerHand := d.1, table := d.2 }
    else .ok r

/-- The block `if (!bust) { ... }` that compares the two hands. -/
def payout (r : Round M) : Round M :=
  if !r.bust then
    if r.dealerHand.value > HAND_VALUE_LIMIT then
      { r with totalWinnings := r.totalWinnings + r.bet }
    else if r.dealerHand.value > r.userHand.value then
      { r with totalWinnings := r.totalWinnings - r.bet }
    else if r.dealerHand.value < r.userHand.value then
      { r with totalWinnings := r.totalWinnings + r.bet }
    else r
  else r

/-- One pass of the outer loop of `main` from the opening draws up to the payout. -/
def playRound (rand : Nat → Nat) (fuel : Nat) (t : Table) (totalWinnings bet : M)
    (userSoft dealerSoft : Bool) (inputs : List String) : Except Stop (Round M × List String) := do
  let r1 ← initialDeal rand (Round.start t totalWinnings bet userSoft dealerSoft)
  let r2 := blackjackCheck r1
  if !r2.blackjack then do
    let p ← playerLoop rand r2 inputs
    let r4 ← dealerLoop rand fuel p.1
    pure (payout r4, p.2)
  else pure (r2, inputs)

/-- The end of the pass: the dealer's cards, then the user's, go onto `discardedCards`. -/
def discardHands (r : Round M) : Table :=
  { r.table with
    discardedCards := r.table.discardedCards ++ r.dealerHand.getCards ++ r.userHand.getCards }

end Engine

/-! ## Reference definitions, following the specification -/

/-- Spec side: the thirteen ranks in order. -/
def specRanks : List String :=
  ["Ace", "Two", "Three", "Four", "Five", "Six", "Seven", "Eight", "Nine", "Ten", "Jack",
    "Queen", "King"]

/-- Spec side: the four suits in block order. -/
def specSuits : List String := ["Spades", "Hearts", "Diamonds", "Clubs"]

/-- Position in the deck read back from a suit and a rank alone. -/
def deckIndex (suit rank : String) : Int :=
  (specSuits.indexOf suit : Int) * 13 + (specRanks.indexOf rank : Int) + 1

/-- One full deck in ascending order: cards 1 to 52. -/
def fullDeck : List Card := (List.range 52).map (fun j : Nat => deckCard ((j : Int) + 1))

/-- Spec side: the raw sum of a hand, every card at its point value (an Ace at 1). -/
def rawSum (cards : List Card) : Int := (cards.map Card.value).sum

/-- Spec side: the ways to count one card, an Ace as 1 or 11 and any other card at its point
value. -/
def cardCounts (c : Card) : List Int := if c.rank = "Ace" then [1, 11] else [c.value]

/-- Spec side: every sum obtained by choosing a count for each card. -/
def achievableSums : List Card → List Int
  | [] => [0]
  | c :: cs => (cardCounts c).flatMap (fun v => (achievableSums cs).map (fun s => v + s))

/-- Spec side: the reference Blackjack value, the largest achievable sum that is at most 21 when
there is one, else the smallest achievable sum. -/
def referenceValue (cards : List Card) : Int :=
  let sums := achievableSums cards
  let good := sums.filter (fun s => decide (s ≤ 21))
  if good = [] then sums.foldl min (sums.headD 0) else good.foldl max (good.headD 0)

/-- A hand made by `addCard` from an empty hand, one card after the other. -/
def handOf (soft : Bool) (cards : List Card) : BlackjackHand :=
  cards.foldl BlackjackHand.addCard (BlackjackHand.new soft)

/-! ## Sample tables and rounds -/

/- Equality of results is decidable, so sample runs can be evaluated. -/
deriving instance DecidableEq for Except

/-- A shoe holding the deck cards of the given indices; the last one is dealt first. -/
def shoeOf (ns : List Int) : Shoe := { numCards := (ns.length : Int), cards := ns.map deckCard }

/-- A table with the given shoe, nothing discarded and no `rand()` call made yet. -/
def tableOf (ns : List Int) : Table := { shoe := shoeOf ns, discardedCards := [], randPos := 0 }

/-- A round with the dealer on Ace, Six (a soft 17) against a user 19; the shoe will give a Nine
and then a Five. -/
def softSeventeenRound : Round ℚ :=
  { table := tableOf [5, 5, 9]
    userHand := handOf false [deckCard 10, deckCard 9]
    dealerHand := handOf false [deckCard 1, deckCard 6]
    bet := 10
    totalWinnings := 0
    blackjack := false
    bust := false }

/-- The end of a round in which the user stood on King, Queen and the dealer drew to Nine, King. -/
def standRoundEnd : Round ℚ :=
  { table := tableOf [5]
    userHand := handOf false [deckCard 26, deckCard 12]
    dealerHand := handOf false [deckCard 9, deckCard 39]
    bet := 10
    totalWinnings := 10
    blackjack := false
    bust := false }

/-- The opening draws Eight to the dealer and Ace, King to the user. -/
def naturalDeal : Round ℚ :=
  { table := tableOf [5]
    userHand := handOf false [deckCard 1, deckCard 13]
    dealerHand := handOf false [deckCard 8]
    bet := 10
    totalWinnings := 0
    blackjack := false
    bust := false }

/-- A decision state with the user on Six, Five, the dealer showing an Eight. -/
def elevenRound : Round ℚ :=
  { table := tableOf [5, 7, 10, 13]
    userHand := handOf false [deckCard 6, deckCard 5]
    dealerHand := handOf false [deckCard 8]
    bet := 10
    totalWinnings := 0
    blackjack := false
    bust := false }

/-- The end of a round in which the user hit Ten, Six with a Ten and went bust. -/
def bustRoundEnd : Round ℚ :=
  { table := tableOf [5, 5]
    userHand := handOf false [deckCard 10, deckCard 6, deckCard 23]
    dealerHand := handOf false [deckCard 8]
    bet := 10
    totalWinnings := 0 - 10
    blackjack := false
    bust := true }

/-! ## The shuffle as a function of its offsets -/

/-- Exchange of the entries at positions `i` and `j`; nothing happens if one is out of range. -/
def swapAt {α : Type} (l : List α) (i j : Nat) : List α :=
  match l[i]?, l[j]? with
  | some a, some b => (l.set i b).set j a
  | _, _ => l

/-- The walk of `Shoe::shuffle` over a sequence, given the offset chosen at each position: the
first entry is exchanged with the entry `o` places further, then the rest is treated the same
way. -/
def fisherYates {α : Type} : List Nat → List α → List α
  | [], l => l
  | o :: os, l =>
    match swapAt l 0 o with
    | [] => []
    | b :: t => b :: fisherYates os t

/-- The offsets `rand() % (numCards - i)` that `Shoe::shuffle` draws at positions `i`, `i + 1`,
..., for `k` steps, starting with the `pos`-th call of `rand()`. -/
def drawOffsets (rand : Nat → Nat) (n : Nat) : Nat → Nat → Nat → List Nat
  | _, _, 0 => []
  | i, pos, k + 1 => rand pos % (n - i) :: drawOffsets rand n (i + 1) (pos + 1) k

/-- Offsets that `Shoe::shuffle` can draw on `m` remaining cards: one offset below the number of
cards still to place, for every position but the last. -/
def validOffsets : Nat → List Nat → Prop
  | m, [] => m ≤ 1
  | m, o :: os => 2 ≤ m ∧ o < m ∧ validOffsets (m - 1) os

/-- All the offset sequences for `m` cards. -/
def allOffsets : Nat → List (List Nat)
  | 0 => [[]]
  | m + 1 =>
    if m = 0 then [[]]
    else (List.range (m + 1)).flatMap (fun o => (allOffsets m).map (fun os => o :: os))

/-- Repeated `dealCard`, `m` times with no refill in between; the cards drawn are dropped. -/
def drawCards : Nat → Shoe → Except Stop Shoe
  | 0, s => .ok s
  | m + 1, s => do
    let d ← s.dealCard
    drawCards m d.2

/-! ## The session -/

/-- What the console supplies for one pass of the outer loop of `main`: the bet, the lines the
player's loop may read (what it leaves unread is skipped by the yes/no prompt), and the unset
`soft` fields of the two fresh hands. -/
structure RoundInput (M : Type) where
  bet : M
  lines : List String
  userSoft : Bool
  dealerSoft : Bool

/-- The outer `while (true)` loop of `main`, one pass for each round the user asks for. After a
pass the hands go onto the discard pile and the winnings are carried over. -/
def playSession {M : Type} [Add M] [Sub M] [Mul M] [OfScientific M] [OfNat M 2]
    (rand : Nat → Nat) (fuel : Nat) : Table → M → List (RoundInput M) → Except Stop (Table × M)
  | t, totalWinnings, [] => .ok (t, totalWinnings)
  | t, totalWinnings, ri :: ris => do
    let p ← playRound rand fuel t totalWinnings ri.bet ri.userSoft ri.dealerSoft ri.lines
    playSession rand fuel (discardHands p.1) p.1.totalWinnings ris

/-- The body of `main` once a positive `numDecks` has been read: build the shoe, shuffle it and
play the rounds, starting with winnings of zero. -/
def runSession {M : Type} [Add M] [Sub M] [Mul M] [OfScientific M] [OfNat M 2] [OfNat M 0]
    (rand : Nat → Nat) (fuel : Nat) (numDecks : Int) (rounds : List (RoundInput M)) :
    Except Stop (Table × M) := do
  let shoe ← Shoe.new numDecks
  let sh ← shoe.shuffle rand 0
  playSession rand fuel { shoe := sh.1, discardedCards := [], randPos := sh.2 } 0 rounds

/-- The states of the table and the two hands that a session started with `numDecks` decks can
go through: the shuffled new shoe with two fresh hands, then any draw into either hand, and any
end of round, where both hands are put on the discard pile and replaced by fresh ones. -/
inductive Reachable (rand : Nat → Nat) (numDecks : Int) :
    Table → BlackjackHand → BlackjackHand → Prop where
  | start (s0 s1 : Shoe) (pos : Nat) (dealerSoft userSoft : Bool) :
      Shoe.new numDecks = .ok s0 → s0.shuffle rand 0 = .ok (s1, pos) →
      Reachable rand numDecks { shoe := s1, discardedCards := [], randPos := pos }
        (BlackjackHand.new dealerSoft) (BlackjackHand.new userSoft)
  | dealDealer (t : Table) (dealer user : BlackjackHand) (d : BlackjackHand × Table) :
      Reachable rand numDecks t dealer user →
      dealCardAndRefillShoeIfEmpty rand dealer t = .ok d →
      Reachable rand numDecks d.2 d.1 user
  | dealUser (t : Table) (dealer user : BlackjackHand) (d : BlackjackHand × Table) :
      Reachable rand numDecks t dealer user →
      dealCardAndRefillShoeIfEmpty rand user t = .ok d →
      Reachable rand numDecks d.2 dealer d.1
  | discard (t : Table) (dealer user : BlackjackHand) (dealerSoft userSoft : Bool) :
      Reachable rand numDecks t dealer user →
      Reachable rand numDecks
        { t with
          discardedCards := t.discardedCards ++ dealer.getCards ++ user.getCards }
        (BlackjackHand.new dealerSoft) (BlackjackHand.new userSoft)

/-- A result that is either a value with the given property or a stop for want of input or of
fuel. -/
def Benign {α : Type} (P : α → Prop) : Except Stop α → Prop
  | .ok a => P a
  | .error e => e = .noInput ∨ e = .outOfFuel

/-- In between two draws of a round of a session: the state is one the session can go through,
the shoe holds a card, and neither hand holds more cards than its value. -/
def RoundSafe {M : Type} (rand : Nat → Nat) (numDecks : Int) (r : Round M) : Prop :=
  Reachable rand numDecks r.table r.dealerHand r.userHand ∧ r.table.shoe.cards ≠ [] ∧
    (r.dealerHand.cards.length : Int) ≤ r.dealerHand.value ∧
    (r.userHand.cards.length : Int) ≤ r.userHand.value

/-- In between two rounds of a session: the table, with two fresh hands, is in a state the
session can go through, and the shoe holds a card. -/
def TableSafe (rand : Nat → Nat) (numDecks : Int) (t : Table) : Prop :=
  (∀ dealerSoft userSoft : Bool,
    Reachable rand numDecks t (BlackjackHand.new dealerSoft) (BlackjackHand.new userSoft)) ∧
    t.shoe.cards ≠ []

/-- One round for the sample sessions: a bet of 10 and the given lines. -/
def sampleRound (lines : List String) : RoundInput ℚ :=
  { bet := 10, lines := lines, userSoft := false, dealerSoft := false }

/-! ## Cards -/

/-- Within its range `setTo` overwrites every field, so the card it is called on is irrelevant. -/
theorem setTo_eq_deckCard (c : Card) (n : Int) (h1 : 1 ≤ n) (h52 : n ≤ 52) :
    c.setTo n = deckCard n := by
  interval_cases n <;> rfl

/-- Every index from 1 to 52 gives a card with point value 1 to 10 whose rank is Ace exactly when
the value is 1, and never the NULL rank or suit. -/
theorem deckCard_facts (c : Card) (n : Int) (h1 : 1 ≤ n) (h52 : n ≤ 52) :
    1 ≤ (c.setTo n).value ∧ (c.setTo n).value ≤ 10 ∧
      ((c.setTo n).rank = "Ace" ↔ (c.setTo n).value = 1) ∧
      (c.setTo n).rank ≠ "NULL" ∧ (c.setTo n).suit ≠ "NULL" := by
  rw [setTo_eq_deckCard c n h1 h52]
  interval_cases n <;> decide

/-- The index is recovered from the suit and rank that `setTo` writes. -/
theorem deckIndex_setTo (c : Card) (n : Int) (h1 : 1 ≤ n) (h52 : n ≤ 52) :
    deckIndex (c.setTo n).suit (c.setTo n).rank = n := by
  interval_cases n <;> rfl

/-- C8: for every index n in 1..52, `setTo n` writes the suit of the block of 13 that holds n
(Spades, Hearts, Diamonds, Clubs), the k-th rank of Ace..King for k = ((n-1) mod 13) + 1, and the
value min(k, 10). -/
theorem setTo_matches_spec (c : Card) (n : Int) (h1 : 1 ≤ n) (h52 : n ≤ 52) :
    (c.setTo n).suit = specSuits.getD ((n - 1) / 13).toNat "NULL" ∧
      (c.setTo n).rank = specRanks.getD ((n - 1) % 13).toNat "NULL" ∧
      (c.setTo n).value = min ((n - 1) % 13 + 1) 10 := by
  rw [setTo_eq_deckCard c n h1 h52]
  interval_cases n <;> decide

/-- Witness for C8 at index 37, the Jack of Diamonds. -/
theorem setTo_matches_spec_witness :
    (Card.default.setTo 37).suit = "Diamonds" ∧ (Card.default.setTo 37).rank = "Jack" ∧
      (Card.default.setTo 37).value = 10 :=
  setTo_matches_spec Card.default 37 (by decide) (by decide)

/-- C9: two indices in 1..52 that get the same suit and rank from `setTo` are equal; 1, 14, 27, 40
are the Aces and 13, 26, 39, 52 the Kings of Spades, Hearts, Diamonds, Clubs; the 52 (suit, rank)
pairs are pairwise distinct. -/
theorem setTo_injective (c : Card) (m n : Int) (hm : 1 ≤ m ∧ m ≤ 52) (hn : 1 ≤ n ∧ n ≤ 52) :
    (((c.setTo m).suit = (c.setTo n).suit ∧ (c.setTo m).rank = (c.setTo n).rank) → m = n) ∧
      [1, 14, 27, 40].map (fun i => ((c.setTo i).rank, (c.setTo i).suit)) =
        [("Ace", "Spades"), ("Ace", "Hearts"), ("Ace", "Diamonds"), ("Ace", "Clubs")] ∧
      [13, 26, 39, 52].map (fun i => ((c.setTo i).rank, (c.setTo i).suit)) =
        [("King", "Spades"), ("King", "Hearts"), ("King", "Diamonds"), ("King", "Clubs")] ∧
      ((List.range 52).map
        (fun i : Nat =>
          ((deckCard ((i : Int) + 1)).suit, (deckCard ((i : Int) + 1)).rank))).Nodup := by
  refine ⟨?_, rfl, rfl, by decide⟩
  rintro ⟨hs, hr⟩
  have e1 := deckIndex_setTo c m hm.1 hm.2
  have e2 := deckIndex_setTo c n hn.1 hn.2
  rw [hs, hr] at e1
  exact e1.symm.trans e2

/-- Witness for C9 at the indices 13 and 26: same rank, different suits. -/
theorem setTo_injective_witness :
    ((Card.default.setTo 13).suit = (Card.default.setTo 26).suit ∧
        (Card.default.setTo 13).rank = (Card.default.setTo 26).rank → (13 : Int) = 26) ∧
      (Card.default.setTo 13).rank = (Card.default.setTo 26).rank :=
  ⟨(setTo_injective Card.default 13 26 (by decide) (by decide)).1, by decide⟩

/-! ## The shoe constructor -/

/-- A product that fits a 32-bit `int` is not changed by the wrap. -/
theorem toInt32_of_fits (x : Int) (h0 : 0 ≤ x) (h : x ≤ 2147483647) : toInt32 x = x := by
  unfold toInt32
  omega

/-- The constructor loop over one more deck appends one full deck. -/
theorem fill_succ_deck (d : Nat) :
    (List.range (52 * (d + 1))).map (fun i : Nat => Card.default.setTo ((i : Int) % 52 + 1)) =
      (List.range (52 * d)).map (fun i : Nat => Card.default.setTo ((i : Int) % 52 + 1)) ++
        fullDeck := by
  have h : 52 * (d + 1) = 52 * d + 52 := by ring
  rw [h, List.range_add, List.map_append, List.map_map]
  congr 1
  unfold fullDeck deckCard
  apply List.map_congr_left
  intro j hj
  have hj52 : j < 52 := List.mem_range.mp hj
  simp only [Function.comp_apply]
  congr 1
  push_cast
  omega

/-- Each card of the deck occurs once in a full deck. -/
theorem count_fullDeck (n : Int) (h1 : 1 ≤ n) (h52 : n ≤ 52) :
    fullDeck.count (deckCard n) = 1 := by
  interval_cases n <;> decide

/-- Each card of the deck occurs `d` times in the first `52 * d` slots. -/
theorem count_fill (d : Nat) (n : Int) (h1 : 1 ≤ n) (h52 : n ≤ 52) :
    ((List.range (52 * d)).map
      (fun i : Nat => Card.default.setTo ((i : Int) % 52 + 1))).count (deckCard n) = d := by
  induction d with
  | zero => simp
  | succ d ih => rw [fill_succ_deck, List.count_append, ih, count_fullDeck n h1 h52]

/-- The constructor succeeds, with the unwrapped count, when `numDecks * 52` fits an `int`. -/
theorem Shoe.new_of_fits (numDecks : Int) (h1 : 1 ≤ numDecks) (hmax : numDecks ≤ 41297762) :
    Shoe.new numDecks = .ok
      { numCards := numDecks * 52
        cards := (List.range (52 * numDecks.toNat)).map
          (fun i : Nat => Card.default.setTo ((i : Int) % 52 + 1)) } := by
  have hw : toInt32 (numDecks * 52) = numDecks * 52 := toInt32_of_fits _ (by omega) (by omega)
  have hn : (numDecks * 52).toNat = 52 * numDecks.toNat := by omega
  simp only [Shoe.new, hw, hn]
  rw [if_neg (by omega)]

/-- A shoe that the constructor returns has a count that matches its vector. -/
theorem Shoe.new_wf (numDecks : Int) (s0 : Shoe) (h : Shoe.new numDecks = .ok s0) :
    s0.numCards = (s0.cards.length : Int) := by
  unfold Shoe.new at h
  simp only at h
  split at h
  · exact absurd h (by simp)
  · rename_i hn
    rw [← Except.ok.inj h]
    simp only [List.length_map, List.length_range]
    omega

/-- C10, as stated, fails once `numDecks * 52` leaves the range of `int`: with 82595525 decks the
product wraps to 4 and the shoe holds four cards; with 41297763 decks it wraps below zero and the
constructor throws. -/
theorem Shoe.new_overflow :
    (1 : Int) ≤ 82595525 ∧
      Shoe.new 82595525 =
        .ok { numCards := 4, cards := [deckCard 1, deckCard 2, deckCard 3, deckCard 4] } ∧
      (4 : Int) ≠ 82595525 * 52 ∧
      (1 : Int) ≤ 41297763 ∧ Shoe.new 41297763 = .error .lengthError :=
  ⟨by decide, rfl, by decide, by decide, rfl⟩

/-- C10 (amended): for every numDecks with 1 ≤ numDecks ≤ 41297762, so that numDecks * 52 fits a
32-bit int, the constructor returns a shoe whose getNumCards is numDecks * 52, that holds that
many cards, whose card at position i is card (i mod 52) + 1, with no NULL card, and in which each
of the 52 cards occurs exactly numDecks times. -/
theorem Shoe.new_holds_decks (numDecks : Int) (h1 : 1 ≤ numDecks) (hmax : numDecks ≤ 41297762) :
    ∃ s : Shoe, Shoe.new numDecks = .ok s ∧
      s.getNumCards = numDecks * 52 ∧
      (s.cards.length : Int) = numDecks * 52 ∧
      (∀ i : Nat, (i : Int) < numDecks * 52 →
        s.cards[i]? = some (deckCard ((i : Int) % 52 + 1))) ∧
      (∀ c ∈ s.cards, c ≠ Card.default ∧ c.rank ≠ "NULL" ∧ c.suit ≠ "NULL") ∧
      (∀ n : Int, 1 ≤ n → n ≤ 52 → (s.cards.count (deckCard n) : Int) = numDecks) := by
  refine ⟨_, Shoe.new_of_fits numDecks h1 hmax, rfl, ?_, ?_, ?_, ?_⟩
  · simp only [List.length_map, List.length_range]
    omega
  · intro i hi
    have hi2 : i < 52 * numDecks.toNat := by omega
    simp only [List.getElem?_map, List.getElem?_range hi2, Option.map_some', deckCard]
  · intro c hc
    simp only [List.mem_map, List.mem_range] at hc
    obtain ⟨i, _, rfl⟩ := hc
    have hf := deckCard_facts Card.default ((i : Int) % 52 + 1) (by omega) (by omega)
    refine ⟨?_, hf.2.2.2.1, hf.2.2.2.2⟩
    intro he
    rw [he] at hf
    exact absurd hf.1 (by decide)
  · intro n hn1 hn52
    rw [count_fill numDecks.toNat n hn1 hn52]
    omega

/-- Witness for C10 (amended) with two decks. -/
theorem Shoe.new_holds_decks_witness :
    ∃ s : Shoe, Shoe.new 2 = .ok s ∧
      s.getNumCards = 2 * 52 ∧
      (s.cards.length : Int) = 2 * 52 ∧
      (∀ i : Nat, (i : Int) < 2 * 52 → s.cards[i]? = some (deckCard ((i : Int) % 52 + 1))) ∧
      (∀ c ∈ s.cards, c ≠ Card.default ∧ c.rank ≠ "NULL" ∧ c.suit ≠ "NULL") ∧
      (∀ n : Int, 1 ≤ n → n ≤ 52 → (s.cards.count (deckCard n) : Int) = 2) :=
  Shoe.new_holds_decks 2 (by decide) (by decide)

/-! ## Hand valuation -/

/-- The first loop of `addCard` from any starting pair. -/
theorem sumLoop_fold (cards : List Card) (a : Int) (k : Nat) :
    cards.foldl
      (fun acc c => (acc.1 + c.getValue, if c.getRank = "Ace" then acc.2 + 1 else acc.2)) (a, k) =
      (a + rawSum cards, k + cards.countP (fun c => decide (c.rank = "Ace"))) := by
  induction cards generalizing a k with
  | nil => simp [rawSum]
  | cons c cs ih =>
    rw [List.foldl_cons, ih]
    by_cases hc : c.rank = "Ace"
    · simp [rawSum, Card.getValue, Card.getRank, hc, List.countP_cons]
      constructor <;> ring
    · simp [rawSum, Card.getValue, Card.getRank, hc, List.countP_cons]
      ring

/-- The first loop of `addCard` computes the raw sum and the number of Aces. -/
theorem sumLoop_eq (cards : List Card) :
    BlackjackHand.sumLoop cards =
      (rawSum cards, cards.countP (fun c => decide (c.rank = "Ace"))) := by
  unfold BlackjackHand.sumLoop
  rw [sumLoop_fold]
  simp

/-- The second loop of `addCard` does nothing once the value is above 11. -/
theorem aceLoop_stop (n : Nat) (w : Int) (b : Bool) (hw : 11 < w) :
    BlackjackHand.aceLoop n (w, b) = (w, b) := by
  cases n with
  | zero => rfl
  | succ m => simp [BlackjackHand.aceLoop]; omega

/-- The second loop of `addCard` adds 10 at most once when the raw sum is at least the number of
Aces. -/
theorem aceLoop_eq (n : Nat) (v : Int) (hn : (n : Int) ≤ v) :
    BlackjackHand.aceLoop n (v, false) =
      if 0 < n ∧ v ≤ 11 then (v + 10, true) else (v, false) := by
  cases n with
  | zero => simp [BlackjackHand.aceLoop]
  | succ m =>
    by_cases hv : v ≤ 11
    · simp only [BlackjackHand.aceLoop, hv, if_true, Nat.succ_pos, and_self]
      cases m with
      | zero => rfl
      | succ k =>
        apply aceLoop_stop
        push_cast at hn
        omega
    · simp [BlackjackHand.aceLoop, hv]

/-- With no negative card and every Ace worth 1, the raw sum is at least the number of Aces. -/
theorem countAces_le_rawSum (cards : List Card)
    (h : ∀ c ∈ cards, 0 ≤ c.value ∧ (c.rank = "Ace" → c.value = 1)) :
    ((cards.countP (fun c => decide (c.rank = "Ace")) : Nat) : Int) ≤ rawSum cards := by
  induction cards with
  | nil => simp [rawSum]
  | cons c cs ih =>
    have h1 := h c (List.mem_cons_self c cs)
    have h2 := ih (fun d hd => h d (List.mem_cons_of_mem c hd))
    simp only [rawSum, List.map_cons, List.sum_cons] at h2 ⊢
    rw [List.countP_cons]
    by_cases hace : c.rank = "Ace"
    · have h3 := h1.2 hace
      simp only [hace, decide_True, if_true]
      push_cast
      omega
    · simp only [hace, decide_False, Bool.false_eq_true, if_false]
      omega

/-- Adding cards appends them to the cards held. -/
theorem handOf_fold_cards (cs : List Card) (h : BlackjackHand) :
    (cs.foldl BlackjackHand.addCard h).cards = h.cards ++ cs := by
  induction cs generalizing h with
  | nil => simp
  | cons c cs ih => rw [List.foldl_cons, ih]; simp [BlackjackHand.addCard]

/-- A hand built from the empty hand holds exactly the cards added. -/
theorem handOf_cards (b : Bool) (cs : List Card) : (handOf b cs).cards = cs := by
  simp [handOf, handOf_fold_cards, BlackjackHand.new]

/-- Building a hand ends with an `addCard` of the last card. -/
theorem handOf_concat (b : Bool) (cs : List Card) (c : Card) :
    handOf b (cs ++ [c]) = (handOf b cs).addCard c := by
  simp [handOf, List.foldl_append]

/-- Folding `max` over a list bounded by `v` that reaches `v` gives `v`. -/
theorem foldl_max_aux (l : List Int) (v a : Int) (ha : a ≤ v) (hmem : v ∈ l ∨ a = v)
    (hle : ∀ s ∈ l, s ≤ v) : l.foldl max a = v := by
  induction l generalizing a with
  | nil =>
    rcases hmem with h | h
    · exact absurd h (List.not_mem_nil v)
    · simpa using h
  | cons x xs ih =>
    rw [List.foldl_cons]
    have hx : x ≤ v := hle x (List.mem_cons_self x xs)
    apply ih
    · exact max_le ha hx
    · rcases hmem with h | h
      · rcases List.mem_cons.mp h with h1 | h1
        · right; rw [← h1]; exact max_eq_right (h1 ▸ ha)
        · left; exact h1
      · right; rw [h]; exact max_eq_left hx
    · intro s hs; exact hle s (List.mem_cons_of_mem x hs)

/-- Folding `max` from the head gives the largest element. -/
theorem foldl_max_eq (l : List Int) (v : Int) (hmem : v ∈ l) (hle : ∀ s ∈ l, s ≤ v) :
    l.foldl max (l.headD 0) = v := by
  apply foldl_max_aux l v _ _ (Or.inl hmem) hle
  cases l with
  | nil => exact absurd hmem (List.not_mem_nil v)
  | cons x xs => exact hle x (List.mem_cons_self x xs)

/-- Folding `min` over a list bounded below by `v` that reaches `v` gives `v`. -/
theorem foldl_min_aux (l : List Int) (v a : Int) (ha : v ≤ a) (hmem : v ∈ l ∨ a = v)
    (hle : ∀ s ∈ l, v ≤ s) : l.foldl min a = v := by
  induction l generalizing a with
  | nil =>
    rcases hmem with h | h
    · exact absurd h (List.not_mem_nil v)
    · simpa using h
  | cons x xs ih =>
    rw [List.foldl_cons]
    have hx : v ≤ x := hle x (List.mem_cons_self x xs)
    apply ih
    · exact le_min ha hx
    · rcases hmem with h | h
      · rcases List.mem_cons.mp h with h1 | h1
        · right; rw [← h1]; exact min_eq_right (h1 ▸ ha)
        · left; exact h1
      · right; rw [h]; exact min_eq_left hx
    · intro s hs; exact hle s (List.mem_cons_of_mem x hs)

/-- Folding `min` from the head gives the smallest element. -/
theorem foldl_min_eq (l : List Int) (v : Int) (hmem : v ∈ l) (hle : ∀ s ∈ l, v ≤ s) :
    l.foldl min (l.headD 0) = v := by
  apply foldl_min_aux l v _ _ (Or.inl hmem) hle
  cases l with
  | nil => exact absurd hmem (List.not_mem_nil v)
  | cons x xs => exact hle x (List.mem_cons_self x xs)

/-- The achievable sums are the raw sum plus 10 for each Ace counted as 11. -/
theorem mem_achievableSums (cs : List Card) (hA : ∀ c ∈ cs, c.rank = "Ace" → c.value = 1)
    (s : Int) :
    s ∈ achievableSums cs ↔
      ∃ k : Nat, k ≤ cs.countP (fun c => decide (c.rank = "Ace")) ∧
        s = rawSum cs + 10 * (k : Int) := by
  induction cs generalizing s with
  | nil =>
    simp only [achievableSums, List.mem_singleton, rawSum, List.map_nil, List.sum_nil,
      List.countP_nil, Nat.le_zero]
    constructor
    · intro h; exact ⟨0, rfl, by simp [h]⟩
    · rintro ⟨k, hk, hs⟩; subst hk; simpa using hs
  | cons c cs ih =>
    have ih2 := fun t => ih (fun d hd => hA d (List.mem_cons_of_mem c hd)) t
    have hc := hA c (List.mem_cons_self c cs)
    have hraw : rawSum (c :: cs) = c.value + rawSum cs := by simp [rawSum]
    rw [hraw, List.countP_cons]
    simp only [achievableSums, List.mem_flatMap, List.mem_map]
    by_cases hace : c.rank = "Ace"
    · have hc1 := hc hace
      simp only [cardCounts, hace, if_true, decide_True, List.mem_cons, List.mem_singleton,
        List.not_mem_nil, or_false]
      constructor
      · rintro ⟨v, hv, t, ht, rfl⟩
        obtain ⟨k, hk, rfl⟩ := (ih2 t).mp ht
        rcases hv with rfl | rfl
        · exact ⟨k, by omega, by rw [hc1]; ring⟩
        · exact ⟨k + 1, by omega, by rw [hc1]; push_cast; ring⟩
      · rintro ⟨k, hk, rfl⟩
        cases k with
        | zero =>
          exact ⟨1, Or.inl rfl, rawSum cs, (ih2 _).mpr ⟨0, by omega, by simp⟩, by rw [hc1]; simp⟩
        | succ j =>
          exact ⟨11, Or.inr rfl, rawSum cs + 10 * (j : Int), (ih2 _).mpr ⟨j, by omega, rfl⟩,
            by rw [hc1]; push_cast; ring⟩
    · simp only [cardCounts, hace, if_false, decide_False, List.mem_singleton]
      constructor
      · rintro ⟨v, rfl, t, ht, rfl⟩
        obtain ⟨k, hk, rfl⟩ := (ih2 t).mp ht
        exact ⟨k, by simpa using hk, by ring⟩
      · rintro ⟨k, hk, rfl⟩
        exact ⟨c.value, rfl, rawSum cs + 10 * (k : Int),
          (ih2 _).mpr ⟨k, by simpa using hk, rfl⟩, by ring⟩

/-- Closed form of the reference value. -/
theorem referenceValue_eq (cs : List Card)
    (hv : ∀ c ∈ cs, 0 ≤ c.value ∧ (c.rank = "Ace" → c.value = 1)) :
    referenceValue cs =
      if 0 < cs.countP (fun c => decide (c.rank = "Ace")) ∧ rawSum cs ≤ 11 then rawSum cs + 10
      else rawSum cs := by
  have hmem := mem_achievableSums cs (fun c hc => (hv c hc).2)
  have hcnt := countAces_le_rawSum cs hv
  have hraw : rawSum cs ∈ achievableSums cs := (hmem _).mpr ⟨0, Nat.zero_le _, by simp⟩
  unfold referenceValue
  simp only
  by_cases hsoft : 0 < cs.countP (fun c => decide (c.rank = "Ace")) ∧ rawSum cs ≤ 11
  · rw [if_pos hsoft]
    have hin : rawSum cs + 10 ∈ (achievableSums cs).filter (fun s => decide (s ≤ 21)) := by
      rw [List.mem_filter]
      refine ⟨(hmem _).mpr ⟨1, hsoft.1, by simp⟩, ?_⟩
      simp only [decide_eq_true_eq]
      omega
    rw [if_neg (List.ne_nil_of_mem hin)]
    apply foldl_max_eq _ _ hin
    intro s hs
    rw [List.mem_filter] at hs
    obtain ⟨k, hk, rfl⟩ := (hmem s).mp hs.1
    have h21 := hs.2
    simp only [decide_eq_true_eq] at h21
    omega
  · rw [if_neg hsoft]
    by_cases h21 : rawSum cs ≤ 21
    · have hin : rawSum cs ∈ (achievableSums cs).filter (fun s => decide (s ≤ 21)) := by
        rw [List.mem_filter]
        exact ⟨hraw, by simpa using h21⟩
      rw [if_neg (List.ne_nil_of_mem hin)]
      apply foldl_max_eq _ _ hin
      intro s hs
      rw [List.mem_filter] at hs
      obtain ⟨k, hk, rfl⟩ := (hmem s).mp hs.1
      have h21 := hs.2
      simp only [decide_eq_true_eq] at h21
      omega
    · have hnil : (achievableSums cs).filter (fun s => decide (s ≤ 21)) = [] := by
        rw [List.filter_eq_nil_iff]
        intro s hs
        obtain ⟨k, hk, rfl⟩ := (hmem s).mp hs
        simp only [decide_eq_true_eq]
        omega
      rw [if_pos hnil]
      apply foldl_min_eq _ _ hraw
      intro s hs
      obtain ⟨k, hk, rfl⟩ := (hmem s).mp hs
      omega

/-- Closed form of the hand after `addCard`. -/
theorem addCard_eq (h : BlackjackHand) (c : Card)
    (hv : ∀ d ∈ h.cards ++ [c], 0 ≤ d.value ∧ (d.rank = "Ace" → d.value = 1)) :
    h.addCard c =
      { handValue :=
          if 0 < (h.cards ++ [c]).countP (fun d => decide (d.rank = "Ace")) ∧
              rawSum (h.cards ++ [c]) ≤ 11 then rawSum (h.cards ++ [c]) + 10
          else rawSum (h.cards ++ [c])
        cards := h.cards ++ [c]
        soft := decide (0 < (h.cards ++ [c]).countP (fun d => decide (d.rank = "Ace")) ∧
              rawSum (h.cards ++ [c]) ≤ 11) } := by
  have hcnt := countAces_le_rawSum _ hv
  simp only [BlackjackHand.addCard, sumLoop_eq, aceLoop_eq _ _ hcnt]
  split <;> simp_all

/-- Closed form of a non-empty hand built from the empty hand. -/
theorem handOf_eq (b : Bool) (cs : List Card) (hne : cs ≠ [])
    (hv : ∀ d ∈ cs, 0 ≤ d.value ∧ (d.rank = "Ace" → d.value = 1)) :
    handOf b cs =
      { handValue :=
          if 0 < cs.countP (fun d => decide (d.rank = "Ace")) ∧ rawSum cs ≤ 11 then rawSum cs + 10
          else rawSum cs
        cards := cs
        soft := decide (0 < cs.countP (fun d => decide (d.rank = "Ace")) ∧ rawSum cs ≤ 11) } := by
  rcases List.eq_nil_or_concat cs with h | ⟨l, c, rfl⟩
  · exact absurd h hne
  · rw [List.concat_eq_append] at hv ⊢
    rw [handOf_concat, addCard_eq _ _ (by rw [handOf_cards]; exact hv), handOf_cards]

/-- Cards of the deck are worth at least 1, an Ace exactly 1. -/
theorem deckCards_sound (ns : List Int) (hns : ∀ n ∈ ns, 1 ≤ n ∧ n ≤ 52) :
    ∀ c ∈ ns.map deckCard, 0 ≤ c.value ∧ (c.rank = "Ace" → c.value = 1) := by
  intro c hc
  obtain ⟨n, hn, rfl⟩ := List.mem_map.mp hc
  have hf := deckCard_facts Card.default n (hns n hn).1 (hns n hn).2
  exact ⟨by have := hf.1; unfold deckCard; omega, hf.2.2.1.mp⟩

/-- Whatever the index, `setTo` on a fresh card leaves no negative value and no Ace that is not
worth 1: outside 1..52 the card stays the NULL card. -/
theorem anyCards_sound (ns : List Int) :
    ∀ c ∈ ns.map deckCard, 0 ≤ c.value ∧ (c.rank = "Ace" → c.value = 1) := by
  intro c hc
  obtain ⟨n, _, rfl⟩ := List.mem_map.mp hc
  by_cases hr : 1 ≤ n ∧ n ≤ 52
  · have hf := deckCard_facts Card.default n hr.1 hr.2
    exact ⟨by have := hf.1; unfold deckCard; omega, hf.2.2.1.mp⟩
  · have hd : deckCard n = Card.default := by
      unfold deckCard Card.setTo
      rw [if_neg (by omega)]
    rw [hd]
    decide

/-- C1: for every sequence of cards made by `setTo` from indices in 1..52 and added with `addCard`
to an empty hand, the hand holds those cards and `value()` is the reference Blackjack value: the
largest sum at most 21 over all ways of counting each Ace as 1 or 11, else the smallest sum. -/
theorem handOf_value_eq_referenceValue (soft0 : Bool) (ns : List Int)
    (hns : ∀ n ∈ ns, 1 ≤ n ∧ n ≤ 52) :
    (handOf soft0 (ns.map deckCard)).getCards = ns.map deckCard ∧
      (handOf soft0 (ns.map deckCard)).value = referenceValue (ns.map deckCard) := by
  refine ⟨handOf_cards _ _, ?_⟩
  rw [referenceValue_eq _ (deckCards_sound ns hns)]
  by_cases hne : ns.map deckCard = []
  · rw [hne]
    simp [handOf, BlackjackHand.new, BlackjackHand.value, rawSum]
  · rw [handOf_eq soft0 _ hne (deckCards_sound ns hns)]
    rfl

/-- Witness for C1: Ace, Ace, Nine is worth 21; King, Queen, Two is worth 22. -/
theorem handOf_value_eq_referenceValue_witness :
    ((handOf false ([1, 14, 9].map deckCard)).getCards = [1, 14, 9].map deckCard ∧
      (handOf false ([1, 14, 9].map deckCard)).value = referenceValue ([1, 14, 9].map deckCard)) ∧
      referenceValue ([1, 14, 9].map deckCard) = 21 ∧
      (handOf false ([13, 12, 2].map deckCard)).value = 22 :=
  ⟨handOf_value_eq_referenceValue false [1, 14, 9] (by decide), by decide, by decide⟩

/-- C2: for every non-empty sequence of cards added with `addCard` (any card a program can hold is
`Card().setTo(n)` for some n, the NULL card when n is outside 1..52), `isSoft()` holds exactly
when `value()` is the raw sum plus 10, and exactly when the hand has an Ace and a raw sum of at
most 11; Ace, King is a soft 21 and Ace, Ace a soft 12. -/
theorem handOf_isSoft_iff (soft0 : Bool) (ns : List Int) (hne : ns ≠ []) :
    ((handOf soft0 (ns.map deckCard)).isSoft = true ↔
        (handOf soft0 (ns.map deckCard)).value = rawSum (ns.map deckCard) + 10) ∧
      ((handOf soft0 (ns.map deckCard)).isSoft = true ↔
        (∃ c ∈ ns.map deckCard, c.rank = "Ace") ∧ rawSum (ns.map deckCard) ≤ 11) ∧
      ((handOf soft0 [deckCard 1, deckCard 13]).value = 21 ∧
        (handOf soft0 [deckCard 1, deckCard 13]).isSoft = true) ∧
      ((handOf soft0 [deckCard 1, deckCard 14]).value = 12 ∧
        (handOf soft0 [deckCard 1, deckCard 14]).isSoft = true) := by
  have hne2 : ns.map deckCard ≠ [] := by simpa using hne
  rw [handOf_eq soft0 _ hne2 (anyCards_sound ns)]
  simp only [BlackjackHand.isSoft, BlackjackHand.value, decide_eq_true_eq, List.countP_pos_iff]
  refine ⟨?_, ?_, ?_, ?_⟩
  · constructor
    · intro h; rw [if_pos h]
    · intro h
      by_contra hc
      rw [if_neg hc] at h
      omega
  · simp
  · cases soft0 <;> decide
  · cases soft0 <;> decide

/-- Witness for C2 on Ace, King. -/
theorem handOf_isSoft_iff_witness :
    ((handOf false ([1, 13].map deckCard)).isSoft = true ↔
        (handOf false ([1, 13].map deckCard)).value = rawSum ([1, 13].map deckCard) + 10) ∧
      ((handOf false ([1, 13].map deckCard)).isSoft = true ↔
        (∃ c ∈ [1, 13].map deckCard, c.rank = "Ace") ∧ rawSum ([1, 13].map deckCard) ≤ 11) ∧
      ((handOf false [deckCard 1, deckCard 13]).value = 21 ∧
        (handOf false [deckCard 1, deckCard 13]).isSoft = true) ∧
      ((handOf false [deckCard 1, deckCard 14]).value = 12 ∧
        (handOf false [deckCard 1, deckCard 14]).isSoft = true) :=
  handOf_isSoft_iff false [1, 13] (by decide)

/-! ## The round -/

/-- A successful draw takes the last card of the shoe and adds it to the hand. -/
theorem deal_ok (rand : Nat → Nat) (hand : BlackjackHand) (t : Table)
    (d : BlackjackHand × Table) (h : dealCardAndRefillShoeIfEmpty rand hand t = .ok d) :
    ∃ c, t.shoe.cards.getLast? = some c ∧ d.1 = hand.addCard c := by
  unfold dealCardAndRefillShoeIfEmpty Shoe.dealCard at h
  cases hl : t.shoe.cards.getLast? with
  | none => simp [hl, bind, Except.bind] at h
  | some c =>
    refine ⟨c, rfl, ?_⟩
    simp only [hl, bind, Except.bind] at h
    split at h
    · exact absurd h (by simp)
    · simp only [pure, Except.pure, Except.ok.injEq] at h
      rw [← h]

/-- When the dealer loop returns, its condition is false, it has only appended cards to the dealer
hand (at least one if the condition held at the start) and it has left the flags, the bet, the
winnings and the user hand alone. -/
theorem dealerLoop_ok {M : Type} (rand : Nat → Nat) (fuel : Nat) (r r' : Round M)
    (h : dealerLoop rand fuel r = .ok r') :
    dealerMustDraw r' = false ∧ r'.bust = r.bust ∧ r'.blackjack = r.blackjack ∧
      r'.bet = r.bet ∧ r'.totalWinnings = r.totalWinnings ∧ r'.userHand = r.userHand ∧
      ∃ l, r'.dealerHand.cards = r.dealerHand.cards ++ l ∧ (dealerMustDraw r = true → l ≠ []) := by
  induction fuel generalizing r with
  | zero =>
    unfold dealerLoop at h
    by_cases hc : dealerMustDraw r = true
    · simp [hc] at h
    · simp only [hc, if_false, Except.ok.injEq, Bool.false_eq_true] at h
      subst h
      exact ⟨by simpa using hc, rfl, rfl, rfl, rfl, rfl, [], by simp, fun h => absurd h hc⟩
  | succ n ih =>
    unfold dealerLoop at h
    by_cases hc : dealerMustDraw r = true
    · simp only [hc, if_true, bind, Except.bind] at h
      cases hd : dealCardAndRefillShoeIfEmpty rand r.dealerHand r.table with
      | error e => simp [hd] at h
      | ok d =>
        simp only [hd] at h
        obtain ⟨c, _, hc2⟩ := deal_ok rand _ _ d hd
        obtain ⟨h1, h2, h3, h4, h5, h6, l, hl, _⟩ := ih _ h
        refine ⟨h1, h2, h3, h4, h5, h6, c :: l, ?_, fun _ => by simp⟩
        rw [hl]
        simp [hc2, BlackjackHand.addCard]
    · simp only [hc, if_false, Except.ok.injEq, Bool.false_eq_true] at h
      subst h
      exact ⟨by simpa using hc, rfl, rfl, rfl, rfl, rfl, [], by simp, fun h => absurd h hc⟩

/-- The loop condition spelled out. -/
theorem dealerMustDraw_iff {M : Type} (r : Round M) :
    dealerMustDraw r = true ↔
      r.bust = false ∧ (r.dealerHand.value < 17 ∨
        (r.dealerHand.value = 17 ∧ r.dealerHand.isSoft = true)) := by
  simp [dealerMustDraw, DEALER_RESOLUTION_LIMIT]

/-- After a bust the dealer loop returns at once. -/
theorem dealerLoop_of_bust {M : Type} (rand : Nat → Nat) (fuel : Nat) (r : Round M)
    (hb : r.bust = true) : dealerLoop rand fuel r = .ok r := by
  have hf : ¬ dealerMustDraw r = true := by simp [dealerMustDraw, hb]
  cases fuel <;> simp [dealerLoop, hf]

/-- The opening draws give the dealer the top card of the shoe and the user two cards, and touch
nothing else of the round. -/
theorem initialDeal_ok {M : Type} (rand : Nat → Nat) (r r1 : Round M)
    (h : initialDeal rand r = .ok r1) :
    r1.bet = r.bet ∧ r1.totalWinnings = r.totalWinnings ∧ r1.blackjack = r.blackjack ∧
      r1.bust = r.bust ∧
      (∃ c, r.table.shoe.cards.getLast? = some c ∧ r1.dealerHand = r.dealerHand.addCard c) ∧
      ∃ c1 c2, r1.userHand = (r.userHand.addCard c1).addCard c2 := by
  unfold initialDeal at h
  simp only [bind, Except.bind, pure, Except.pure] at h
  cases hd : dealCardAndRefillShoeIfEmpty rand r.dealerHand r.table with
  | error e => simp [hd] at h
  | ok d =>
    simp only [hd] at h
    cases hu1 : dealCardAndRefillShoeIfEmpty rand r.userHand d.2 with
    | error e => simp [hu1] at h
    | ok u1 =>
      simp only [hu1] at h
      cases hu2 : dealCardAndRefillShoeIfEmpty rand u1.1 u1.2 with
      | error e => simp [hu2] at h
      | ok u2 =>
        simp only [hu2, Except.ok.injEq] at h
        subst h
        obtain ⟨c, hc, hc2⟩ := deal_ok rand _ _ d hd
        obtain ⟨c1, _, hc1⟩ := deal_ok rand _ _ u1 hu1
        obtain ⟨c2, _, hc3⟩ := deal_ok rand _ _ u2 hu2
        exact ⟨rfl, rfl, rfl, rfl, ⟨c, hc, hc2⟩, c1, c2, by simp [hc3, hc1]⟩

/-- When the player loop returns from a state that is not bust: the dealer hand and the blackjack
flag are untouched, bust is set exactly when the user value is above 21, the winnings went down by
the final bet if bust and are unchanged otherwise, and the unread lines are a tail of the input.
-/
theorem playerLoop_ok {M : Type} [Sub M] [Mul M] [OfNat M 2] (rand : Nat → Nat)
    (inputs : List String) (r : Round M)
    (p : Round M × List String) (h : playerLoop rand r inputs = .ok p) (hb : r.bust = false) :
    p.1.dealerHand = r.dealerHand ∧ p.1.blackjack = r.blackjack ∧
      (p.1.bust = true ↔ p.1.userHand.value > 21) ∧
      (p.1.bust = true → p.1.totalWinnings = r.totalWinnings - p.1.bet) ∧
      (p.1.bust = false → p.1.totalWinnings = r.totalWinnings) ∧
      ∃ used, inputs = used ++ p.2 := by
  induction inputs generalizing r with
  | nil =>
    rw [playerLoop] at h
    simp only [HAND_VALUE_LIMIT] at h
    split at h
    · simp only [Except.ok.injEq] at h; subst h
      refine ⟨rfl, rfl, ?_, ?_, fun _ => rfl, [], rfl⟩
      · simp [hb]; omega
      · intro hc; simp [hb] at hc
    · split at h
      · simp only [Except.ok.injEq] at h; subst h
        exact ⟨rfl, rfl, by simpa, fun _ => rfl, fun hc => by simp at hc, [], rfl⟩
      · simp at h
  | cons x rest ih =>
    rw [playerLoop] at h
    simp only [HAND_VALUE_LIMIT] at h
    split at h
    · simp only [Except.ok.injEq] at h; subst h
      refine ⟨rfl, rfl, ?_, ?_, fun _ => rfl, [], rfl⟩
      · simp [hb]; omega
      · intro hc; simp [hb] at hc
    · split at h
      · simp only [Except.ok.injEq] at h; subst h
        exact ⟨rfl, rfl, by simpa, fun _ => rfl, fun hc => by simp at hc, [], rfl⟩
      · rename_i hne21 hle21
        split at h
        · -- hit
          simp only [bind, Except.bind] at h
          cases hd : dealCardAndRefillShoeIfEmpty rand r.userHand r.table with
          | error e => simp [hd] at h
          | ok d =>
            simp only [hd] at h
            obtain ⟨h1, h2, h3, h4, h5, used, hu⟩ := ih _ h hb
            exact ⟨h1, h2, h3, h4, h5, x :: used, by simp [hu]⟩
        · split at h
          · -- stand
            simp only [Except.ok.injEq] at h; subst h
            refine ⟨rfl, rfl, ?_, ?_, fun _ => rfl, [x], rfl⟩
            · simp [hb]; omega
            · intro hc; simp [hb] at hc
          · split at h
            · -- double down
              simp only [bind, Except.bind] at h
              cases hd : dealCardAndRefillShoeIfEmpty rand r.userHand r.table with
              | error e => simp [hd] at h
              | ok d =>
                simp only [hd] at h
                split at h
                · simp only [Except.ok.injEq] at h; subst h
                  exact ⟨rfl, rfl, by simpa, fun _ => rfl, fun hc => by simp at hc, [x], rfl⟩
                · rename_i hnb
                  simp only [Except.ok.injEq] at h; subst h
                  refine ⟨rfl, rfl, ?_, ?_, fun _ => rfl, [x], rfl⟩
                  · simp [hb]; omega
                  · intro hc; simp [hb] at hc
            · -- anything else is asked again
              obtain ⟨h1, h2, h3, h4, h5, used, hu⟩ := ih _ h hb
              exact ⟨h1, h2, h3, h4, h5, x :: used, by simp [hu]⟩

/-- The blackjack check either changes nothing or sets the flag and pays 1.5 times the bet. -/
theorem blackjackCheck_fields {M : Type} [Add M] [Mul M] [OfScientific M] (r : Round M) :
    (blackjackCheck r).bust = r.bust ∧ (blackjackCheck r).bet = r.bet ∧
      (blackjackCheck r).userHand = r.userHand ∧ (blackjackCheck r).dealerHand = r.dealerHand ∧
      ((blackjackCheck r).blackjack = false → blackjackCheck r = r) ∧
      (r.userHand.value = 21 → blackjackCheck r =
        { r with blackjack := true, totalWinnings := r.totalWinnings + r.bet * 1.5 }) := by
  unfold blackjackCheck
  simp only [HAND_VALUE_LIMIT]
  split
  · exact ⟨rfl, rfl, rfl, rfl, fun h => by simp at h, fun _ => rfl⟩
  · rename_i hne
    exact ⟨rfl, rfl, rfl, rfl, fun _ => rfl, fun h => absurd h hne⟩

/-- The payout changes the winnings only. -/
theorem payout_fields {M : Type} [Add M] [Sub M] (r : Round M) :
    (payout r).bust = r.bust ∧ (payout r).blackjack = r.blackjack ∧ (payout r).bet = r.bet ∧
      (payout r).userHand = r.userHand ∧ (payout r).dealerHand = r.dealerHand ∧
      (payout r).table = r.table := by
  unfold payout
  split
  · split
    · exact ⟨rfl, rfl, rfl, rfl, rfl, rfl⟩
    · split
      · exact ⟨rfl, rfl, rfl, rfl, rfl, rfl⟩
      · split <;> exact ⟨rfl, rfl, rfl, rfl, rfl, rfl⟩
  · exact ⟨rfl, rfl, rfl, rfl, rfl, rfl⟩

/-- After a bust the payout block is skipped. -/
theorem payout_of_bust {M : Type} [Add M] [Sub M] (r : Round M) (hb : r.bust = true) :
    payout r = r := by
  simp [payout, hb]

/-- The four cases of the payout block for a user who is not bust. -/
theorem payout_cases {M : Type} [Add M] [Sub M] (r : Round M) (hb : r.bust = false)
    (hle : r.userHand.value ≤ 21) :
    (r.dealerHand.value > 21 → (payout r).totalWinnings = r.totalWinnings + r.bet) ∧
      (r.dealerHand.value ≤ 21 → r.dealerHand.value > r.userHand.value →
        (payout r).totalWinnings = r.totalWinnings - r.bet) ∧
      (r.dealerHand.value < r.userHand.value →
        (payout r).totalWinnings = r.totalWinnings + r.bet) ∧
      (r.dealerHand.value = r.userHand.value → (payout r).totalWinnings = r.totalWinnings) := by
  refine ⟨?_, ?_, ?_, ?_⟩
  · intro hgt
    simp [payout, hb, HAND_VALUE_LIMIT, hgt]
  · intro h1 h2
    have h1n : ¬ r.dealerHand.value > 21 := by omega
    simp [payout, hb, HAND_VALUE_LIMIT, h1n, h2]
  · intro h1
    have h1n : ¬ r.dealerHand.value > 21 := by omega
    have h2n : ¬ r.dealerHand.value > r.userHand.value := by omega
    simp [payout, hb, HAND_VALUE_LIMIT, h1n, h2n, h1]
  · intro h1
    have h1n : ¬ r.dealerHand.value > 21 := by omega
    have h2n : ¬ r.dealerHand.value > r.userHand.value := by omega
    have h3n : ¬ r.dealerHand.value < r.userHand.value := by omega
    simp [payout, hb, HAND_VALUE_LIMIT, h1n, h2n, h3n]

/-- A round that returns went through the opening draws and then either the blackjack branch or
the player loop, the dealer loop and the payout. -/
theorem playRound_stages {M : Type} [Add M] [Sub M] [Mul M] [OfScientific M] [OfNat M 2]
    (rand : Nat → Nat) (fuel : Nat) (t : Table) (tw bet : M) (us ds : Bool)
    (inputs : List String) (r : Round M) (rest : List String)
    (h : playRound rand fuel t tw bet us ds inputs = .ok (r, rest)) :
    ∃ r1, initialDeal rand (Round.start t tw bet us ds) = .ok r1 ∧
      ((r1.userHand.value = 21 ∧ r = blackjackCheck r1 ∧ rest = inputs ∧ r.blackjack = true) ∨
        (r1.userHand.value ≠ 21 ∧ ∃ p r4, playerLoop rand r1 inputs = .ok p ∧
          dealerLoop rand fuel p.1 = .ok r4 ∧ r = payout r4 ∧ rest = p.2)) := by
  unfold playRound at h
  simp only [bind, Except.bind, pure, Except.pure] at h
  cases hd : initialDeal rand (Round.start t tw bet us ds) with
  | error e => simp [hd] at h
  | ok r1 =>
    refine ⟨r1, rfl, ?_⟩
    simp only [hd] at h
    by_cases h21 : r1.userHand.value = 21
    · left
      have hbc := (blackjackCheck_fields r1).2.2.2.2.2 h21
      rw [hbc] at h
      simp only [Bool.not_true, Bool.false_eq_true, if_false, Except.ok.injEq, Prod.mk.injEq] at h
      refine ⟨h21, ?_, h.2.symm, ?_⟩
      · rw [hbc]; exact h.1.symm
      · rw [← h.1]
    · right
      have hbc : blackjackCheck r1 = r1 := by
        unfold blackjackCheck
        rw [if_neg (by simpa [HAND_VALUE_LIMIT] using h21)]
      have hd0 := initialDeal_ok rand _ r1 hd
      have hbj : r1.blackjack = false := hd0.2.2.1
      rw [hbc] at h
      simp only [hbj, Bool.not_false, if_true] at h
      cases hp : playerLoop rand r1 inputs with
      | error e => simp [hp] at h
      | ok p =>
        simp only [hp] at h
        cases hdl : dealerLoop rand fuel p.1 with
        | error e => simp [hdl] at h
        | ok r4 =>
          simp only [hdl, Except.ok.injEq, Prod.mk.injEq] at h
          exact ⟨h21, p, r4, rfl, hdl, h.1.symm, h.2.symm⟩

/-- C3: with the player not busted, the dealer loop returns at once without a draw exactly when
the dealer value is neither below 17 nor a soft 17, and otherwise starts with a draw, so any hand
it returns is longer; when it returns the dealer value is at least 17 and not a soft 17; on Ace,
Six it draws at least one card and on Ten, Seven none. -/
theorem dealerLoop_rule {M : Type} (rand : Nat → Nat) (fuel : Nat) (r : Round M)
    (hb : r.bust = false) :
    (¬ (r.dealerHand.value < 17 ∨ (r.dealerHand.value = 17 ∧ r.dealerHand.isSoft = true)) →
        dealerLoop rand fuel r = .ok r) ∧
      ((r.dealerHand.value < 17 ∨ (r.dealerHand.value = 17 ∧ r.dealerHand.isSoft = true)) →
        dealerLoop rand (fuel + 1) r =
            (dealCardAndRefillShoeIfEmpty rand r.dealerHand r.table).bind
              (fun d => dealerLoop rand fuel { r with dealerHand := d.1, table := d.2 }) ∧
          ∀ r', dealerLoop rand fuel r = .ok r' →
            r.dealerHand.cards.length < r'.dealerHand.cards.length) ∧
      (∀ r', dealerLoop rand fuel r = .ok r' →
        17 ≤ r'.dealerHand.value ∧
          ¬ (r'.dealerHand.value = 17 ∧ r'.dealerHand.isSoft = true)) ∧
      (∀ (soft0 : Bool) (a s : Card), a.rank = "Ace" → a.value = 1 → s.rank = "Six" →
        s.value = 6 → r.dealerHand = handOf soft0 [a, s] →
        ∀ r', dealerLoop rand fuel r = .ok r' → ∃ c l, r'.dealerHand.cards = [a, s] ++ c :: l) ∧
      (∀ (soft0 : Bool) (x s : Card), x.rank = "Ten" → x.value = 10 → s.rank = "Seven" →
        s.value = 7 → r.dealerHand = handOf soft0 [x, s] → dealerLoop rand fuel r = .ok r) := by
  have hiff := dealerMustDraw_iff r
  have hstop :
      ¬ (r.dealerHand.value < 17 ∨ (r.dealerHand.value = 17 ∧ r.dealerHand.isSoft = true)) →
        dealerLoop rand fuel r = .ok r := by
    intro hc
    have hf : ¬ dealerMustDraw r = true := fun h => hc (hiff.mp h).2
    cases fuel <;> simp [dealerLoop, hf]
  refine ⟨hstop, ?_, ?_, ?_, ?_⟩
  · intro hc
    have ht : dealerMustDraw r = true := hiff.mpr ⟨hb, hc⟩
    constructor
    · rw [dealerLoop]
      simp only [ht, if_true]
      rfl
    · intro r' h
      obtain ⟨_, _, _, _, _, _, l, hl, hne⟩ := dealerLoop_ok rand fuel r r' h
      rw [hl, List.length_append]
      have := List.length_pos.mpr (hne ht)
      omega
  · intro r' h
    obtain ⟨h1, h2, _⟩ := dealerLoop_ok rand fuel r r' h
    have hn : ¬ dealerMustDraw r' = true := by simp [h1]
    rw [dealerMustDraw_iff, h2] at hn
    constructor
    · by_contra hlt
      exact hn ⟨hb, Or.inl (by omega)⟩
    · intro hs
      exact hn ⟨hb, Or.inr hs⟩
  · intro soft0 a s ha1 ha2 hs1 hs2 hh r' h
    obtain ⟨_, _, _, _, _, _, l, hl, hne⟩ := dealerLoop_ok rand fuel r r' h
    have hcards : r.dealerHand.cards = [a, s] := by rw [hh, handOf_cards]
    have hval : r.dealerHand.value = 17 ∧ r.dealerHand.isSoft = true := by
      rw [hh]
      simp [handOf, BlackjackHand.addCard, BlackjackHand.new, BlackjackHand.sumLoop,
        BlackjackHand.aceLoop, BlackjackHand.value, BlackjackHand.isSoft, Card.getRank,
        Card.getValue, ha1, ha2, hs1, hs2]
    have ht : dealerMustDraw r = true := hiff.mpr ⟨hb, Or.inr hval⟩
    cases l with
    | nil => exact absurd rfl (hne ht)
    | cons c l => exact ⟨c, l, by rw [hl, hcards]⟩
  · intro soft0 x s hx1 hx2 hs1 hs2 hh
    apply hstop
    have hval : r.dealerHand.value = 17 ∧ r.dealerHand.isSoft = false := by
      rw [hh]
      simp [handOf, BlackjackHand.addCard, BlackjackHand.new, BlackjackHand.sumLoop,
        BlackjackHand.aceLoop, BlackjackHand.value, BlackjackHand.isSoft, Card.getRank,
        Card.getValue, hx1, hx2, hs1, hs2]
    rw [hval.1, hval.2]
    simp

/-- Witness for C3: from Ace, Six the dealer draws a Nine (hard 16) and a Five, and stops on 21. -/
theorem dealerLoop_rule_witness :
    softSeventeenRound.bust = false ∧
      ∃ r', dealerLoop (fun _ => 0) 2 softSeventeenRound = .ok r' ∧
        r'.dealerHand.cards = [deckCard 1, deckCard 6, deckCard 9, deckCard 5] ∧
        17 ≤ r'.dealerHand.value :=
  ⟨rfl, _, rfl, rfl, ((dealerLoop_rule (fun _ => 0) 2 softSeventeenRound rfl).2.2.1 _ rfl).1⟩

/-- C4: in every round that ends with neither a blackjack nor a bust, with final bet b, user total
p (at most 21) and dealer total d, the winnings are the starting winnings + b if d > 21, - b if d
≤ 21 and d > p, + b if d < p, and unchanged if d = p. -/
theorem playRound_settlement {M : Type} [Add M] [Sub M] [Mul M] [OfScientific M] [OfNat M 2]
    (rand : Nat → Nat) (fuel : Nat) (t : Table) (tw bet : M) (us ds : Bool)
    (inputs : List String) (r : Round M) (rest : List String)
    (h : playRound rand fuel t tw bet us ds inputs = .ok (r, rest))
    (hbj : r.blackjack = false) (hbust : r.bust = false) :
    r.userHand.value ≤ 21 ∧
      (r.dealerHand.value > 21 → r.totalWinnings = tw + r.bet) ∧
      (r.dealerHand.value ≤ 21 → r.dealerHand.value > r.userHand.value →
        r.totalWinnings = tw - r.bet) ∧
      (r.dealerHand.value < r.userHand.value → r.totalWinnings = tw + r.bet) ∧
      (r.dealerHand.value = r.userHand.value → r.totalWinnings = tw) := by
  obtain ⟨r1, hd, hcase⟩ := playRound_stages rand fuel t tw bet us ds inputs r rest h
  rcases hcase with ⟨_, _, _, hb⟩ | ⟨_, p, r4, hp, hdl, hr, _⟩
  · rw [hbj] at hb; exact absurd hb (by simp)
  · obtain ⟨_, htw1, _, hbust1, _, _⟩ := initialDeal_ok rand _ r1 hd
    have hb1 : r1.bust = false := hbust1
    obtain ⟨_, _, hiff, _, htwp, _⟩ := playerLoop_ok rand inputs r1 p hp hb1
    obtain ⟨_, hb4, _, hbet4, htw4, hu4, _⟩ := dealerLoop_ok rand fuel p.1 r4 hdl
    obtain ⟨hpb, _, hpbet, hpu, hpd, _⟩ := payout_fields r4
    have hbust4 : r4.bust = false := by rw [← hpb, ← hr]; exact hbust
    have hbustp : p.1.bust = false := by rw [← hb4]; exact hbust4
    have htw : r4.totalWinnings = tw := by
      rw [htw4, htwp hbustp, htw1]; rfl
    have hle : r4.userHand.value ≤ 21 := by
      rw [hu4]
      by_contra hc
      have := hiff.mpr (by omega)
      rw [hbustp] at this
      exact absurd this (by simp)
    subst hr
    have hc := payout_cases r4 hbust4 hle
    rw [htw] at hc
    rw [hpu, hpd, hpbet]
    exact ⟨hle, hc⟩

/-- Witness for C4: user 20 against dealer 19 wins the bet of 10. -/
theorem playRound_settlement_witness :
    playRound (fun _ => 0) 5 (tableOf [5, 39, 12, 26, 9]) 0 10 false false ["stand"] =
        .ok (standRoundEnd, []) ∧
      standRoundEnd.userHand.value = 20 ∧ standRoundEnd.dealerHand.value = 19 ∧
      standRoundEnd.totalWinnings = 0 + standRoundEnd.bet :=
  ⟨by decide!, by decide!, by decide!,
    (playRound_settlement (fun _ => 0) 5 (tableOf [5, 39, 12, 26, 9]) 0 10 false false ["stand"]
      standRoundEnd [] (by decide!) (by decide!) (by decide!)).2.2.2.1 (by decide!)⟩

/-- C5: whenever the opening draws succeed and leave the user on 21, the round returns, for any
fuel and any pending input, that deal with the blackjack flag set and the winnings raised by bet *
1.5; the bet and the input are as before, the dealer holds exactly its one opening card and the
user two cards, and nothing else is paid. -/
theorem playRound_blackjack {M : Type} [Add M] [Sub M] [Mul M] [OfScientific M] [OfNat M 2]
    (rand : Nat → Nat) (fuel : Nat) (t : Table) (tw bet : M) (us ds : Bool)
    (inputs : List String) (r1 : Round M)
    (hdeal : initialDeal rand (Round.start t tw bet us ds) = .ok r1)
    (h21 : r1.userHand.value = 21) :
    playRound rand fuel t tw bet us ds inputs =
        .ok ({ r1 with blackjack := true, totalWinnings := tw + bet * 1.5 }, inputs) ∧
      r1.bet = bet ∧ r1.bust = false ∧
      (∃ c, t.shoe.cards.getLast? = some c ∧ r1.dealerHand.cards = [c]) ∧
      r1.userHand.cards.length = 2 := by
  obtain ⟨hbet, htw, _, hbust, ⟨c, hc, hdc⟩, c1, c2, hu⟩ := initialDeal_ok rand _ r1 hdeal
  have hbet2 : r1.bet = bet := hbet
  have htw2 : r1.totalWinnings = tw := htw
  refine ⟨?_, hbet2, hbust, ⟨c, hc, ?_⟩, ?_⟩
  · unfold playRound
    simp only [bind, Except.bind, pure, Except.pure, hdeal]
    rw [(blackjackCheck_fields r1).2.2.2.2.2 h21, hbet2, htw2]
    rfl
  · rw [hdc]; rfl
  · rw [hu]; rfl

/-- Witness for C5: Ace, King against an Eight pays 15 on a bet of 10 and leaves the pending line
unread. -/
theorem playRound_blackjack_witness :
    initialDeal (fun _ => 0) (Round.start (tableOf [5, 13, 1, 8]) 0 10 false false) =
        .ok naturalDeal ∧
      naturalDeal.userHand.value = 21 ∧
      playRound (fun _ => 0) 0 (tableOf [5, 13, 1, 8]) (0 : ℚ) 10 false false ["hit"] =
        .ok ({ naturalDeal with blackjack := true, totalWinnings := 0 + 10 * 1.5 }, ["hit"]) ∧
      naturalDeal.dealerHand.cards = [deckCard 8] :=
  ⟨by decide!, by decide!,
    (playRound_blackjack (fun _ => 0) 0 (tableOf [5, 13, 1, 8]) (0 : ℚ) 10 false false ["hit"]
      naturalDeal (by decide!) (by decide!)).1, by decide!⟩

/-- C6: in every round that ends with the user above 21, bust is set, the winnings are the
starting winnings minus the final bet, the dealer still holds exactly its one opening card, and
the same result is reached with no dealer fuel at all, so the dealer loop drew nothing and the
comparison was skipped. -/
theorem playRound_bust {M : Type} [Add M] [Sub M] [Mul M] [OfScientific M] [OfNat M 2]
    (rand : Nat → Nat) (fuel : Nat) (t : Table) (tw bet : M) (us ds : Bool)
    (inputs : List String) (r : Round M) (rest : List String)
    (h : playRound rand fuel t tw bet us ds inputs = .ok (r, rest))
    (hv : r.userHand.value > 21) :
    r.bust = true ∧ r.blackjack = false ∧ r.totalWinnings = tw - r.bet ∧
      (∃ c, t.shoe.cards.getLast? = some c ∧ r.dealerHand.cards = [c]) ∧
      playRound rand 0 t tw bet us ds inputs = .ok (r, rest) := by
  obtain ⟨r1, hd, hcase⟩ := playRound_stages rand fuel t tw bet us ds inputs r rest h
  obtain ⟨_, htw1, hbj1, hbust1, ⟨c, hc, hdc⟩, _⟩ := initialDeal_ok rand _ r1 hd
  have hb1 : r1.bust = false := hbust1
  have hbj : r1.blackjack = false := hbj1
  rcases hcase with ⟨h21, hr, _, _⟩ | ⟨hne, p, r4, hp, hdl, hr, hrest⟩
  · rw [hr, (blackjackCheck_fields r1).2.2.1, h21] at hv
    exact absurd hv (by decide)
  · obtain ⟨hpd, hpbj, hiff, htwb, _, _⟩ := playerLoop_ok rand inputs r1 p hp hb1
    obtain ⟨_, _, _, _, _, hu4, _⟩ := dealerLoop_ok rand fuel p.1 r4 hdl
    have hpv : p.1.userHand.value > 21 := by
      rw [← hu4, ← (payout_fields r4).2.2.2.1, ← hr]; exact hv
    have hpb : p.1.bust = true := hiff.mpr hpv
    have h4 : r4 = p.1 := by
      have := dealerLoop_of_bust rand fuel p.1 hpb
      rw [hdl] at this
      exact (Except.ok.inj this)
    have hrp : r = p.1 := by rw [hr, h4, payout_of_bust p.1 hpb]
    refine ⟨by rw [hrp]; exact hpb, by rw [hrp, hpbj]; exact hbj, ?_, ⟨c, hc, ?_⟩, ?_⟩
    · rw [hrp, htwb hpb, htw1]; rfl
    · rw [hrp, hpd, hdc]; rfl
    · have hbc : blackjackCheck r1 = r1 := by
        unfold blackjackCheck
        rw [if_neg (by simpa [HAND_VALUE_LIMIT] using hne)]
      unfold playRound
      simp only [bind, Except.bind, pure, Except.pure, hd, hbc, hbj, Bool.not_false, if_true, hp,
        dealerLoop_of_bust rand 0 p.1 hpb, payout_of_bust p.1 hpb]
      rw [hrp, hrest]

/-- Witness for C6: 16 hit with a Ten loses the bet of 10; the second line is never read. -/
theorem playRound_bust_witness :
    playRound (fun _ => 0) 3 (tableOf [5, 5, 23, 6, 10, 8]) (0 : ℚ) 10 false false
        ["hit", "hit"] = .ok (bustRoundEnd, ["hit"]) ∧
      bustRoundEnd.userHand.value = 26 ∧
      bustRoundEnd.totalWinnings = 0 - bustRoundEnd.bet ∧
      bustRoundEnd.dealerHand.cards = [deckCard 8] :=
  ⟨by decide!, by decide!,
    (playRound_bust (fun _ => 0) 3 (tableOf [5, 5, 23, 6, 10, 8]) (0 : ℚ) 10 false false
      ["hit", "hit"] bustRoundEnd ["hit"] (by decide!) (by decide!)).2.2.1, by decide!⟩

/-- C7: at a decision state with user value below 21 and bet b, if the draw succeeds then "double
down" deals exactly that one card, sets the bet to b * 2 and ends the loop with the remaining
input unread; above 21 it marks the bust and takes b * 2 from the winnings, with no dealer draw
and no payout; otherwise the round is settled against the dealer with the bet b * 2. -/
theorem playerLoop_doubleDown {M : Type} [Add M] [Sub M] [Mul M] [OfNat M 2]
    (rand : Nat → Nat) (r : Round M) (rest : List String) (d : BlackjackHand × Table)
    (hv : r.userHand.value < 21) (hb : r.bust = false)
    (hd : dealCardAndRefillShoeIfEmpty rand r.userHand r.table = .ok d) :
    (∃ c, r.table.shoe.cards.getLast? = some c ∧ d.1.cards = r.userHand.cards ++ [c]) ∧
      (d.1.value > 21 →
        playerLoop rand r ("double down" :: rest) =
            .ok ({ r with bet := r.bet * 2, userHand := d.1, table := d.2, bust := true,
                          totalWinnings := r.totalWinnings - r.bet * 2 }, rest) ∧
          ∀ fuel, dealerLoop rand fuel
              { r with bet := r.bet * 2, userHand := d.1, table := d.2, bust := true,
                       totalWinnings := r.totalWinnings - r.bet * 2 } =
            .ok { r with bet := r.bet * 2, userHand := d.1, table := d.2, bust := true,
                         totalWinnings := r.totalWinnings - r.bet * 2 } ∧
            payout { r with bet := r.bet * 2, userHand := d.1, table := d.2, bust := true,
                            totalWinnings := r.totalWinnings - r.bet * 2 } =
              { r with bet := r.bet * 2, userHand := d.1, table := d.2, bust := true,
                       totalWinnings := r.totalWinnings - r.bet * 2 }) ∧
      (d.1.value ≤ 21 →
        playerLoop rand r ("double down" :: rest) =
            .ok ({ r with bet := r.bet * 2, userHand := d.1, table := d.2 }, rest) ∧
          ∀ fuel r4,
            dealerLoop rand fuel { r with bet := r.bet * 2, userHand := d.1, table := d.2 } =
              .ok r4 →
            (payout r4).bet = r.bet * 2 ∧ (payout r4).userHand = d.1 ∧
              (r4.dealerHand.value > 21 →
                (payout r4).totalWinnings = r.totalWinnings + r.bet * 2) ∧
              (r4.dealerHand.value ≤ 21 → r4.dealerHand.value > d.1.value →
                (payout r4).totalWinnings = r.totalWinnings - r.bet * 2) ∧
              (r4.dealerHand.value < d.1.value →
                (payout r4).totalWinnings = r.totalWinnings + r.bet * 2) ∧
              (r4.dealerHand.value = d.1.value →
                (payout r4).totalWinnings = r.totalWinnings)) := by
  have hne : ¬ r.userHand.value = HAND_VALUE_LIMIT := by simp only [HAND_VALUE_LIMIT]; omega
  have hngt : ¬ r.userHand.value > HAND_VALUE_LIMIT := by simp only [HAND_VALUE_LIMIT]; omega
  have hloop : playerLoop rand r ("double down" :: rest) =
      if d.1.value > HAND_VALUE_LIMIT then
        .ok ({ r with bet := r.bet * 2, userHand := d.1, table := d.2, bust := true,
                      totalWinnings := r.totalWinnings - r.bet * 2 }, rest)
      else .ok ({ r with bet := r.bet * 2, userHand := d.1, table := d.2 }, rest) := by
    rw [playerLoop]
    simp only [hne, hngt, if_false, bind, Except.bind, hd]
    rw [if_neg (by decide), if_neg (by decide), if_pos trivial]
  obtain ⟨c, hc, hdc⟩ := deal_ok rand _ _ d hd
  refine ⟨⟨c, hc, by rw [hdc]; rfl⟩, ?_, ?_⟩
  · intro hgt
    refine ⟨by rw [hloop, if_pos (by simpa [HAND_VALUE_LIMIT] using hgt)], fun fuel => ?_⟩
    exact ⟨dealerLoop_of_bust rand fuel _ rfl, payout_of_bust _ rfl⟩
  · intro hle
    refine ⟨by rw [hloop, if_neg (by simp only [HAND_VALUE_LIMIT]; omega)], fun fuel r4 h4 => ?_⟩
    obtain ⟨_, hb4, _, hbet4, htw4, hu4, _⟩ := dealerLoop_ok rand fuel _ r4 h4
    have hb4f : r4.bust = false := by rw [hb4]; exact hb
    have hu4d : r4.userHand = d.1 := hu4
    have hbet : r4.bet = r.bet * 2 := hbet4
    have htw : r4.totalWinnings = r.totalWinnings := htw4
    have hc4 := payout_cases r4 hb4f (by rw [hu4d]; exact hle)
    rw [hu4d, hbet, htw] at hc4
    refine ⟨?_, ?_, hc4⟩
    · rw [(payout_fields r4).2.2.1, hbet]
    · rw [(payout_fields r4).2.2.2.1, hu4d]

/-- Witness for C7: doubling on 11 draws a King to 21, the bet becomes 20 and the next line stays
unread. -/
theorem playerLoop_doubleDown_witness :
    elevenRound.userHand.value = 11 ∧
      dealCardAndRefillShoeIfEmpty (fun _ => 0) elevenRound.userHand elevenRound.table =
        .ok (handOf false [deckCard 6, deckCard 5, deckCard 13], tableOf [5, 7, 10]) ∧
      playerLoop (fun _ => 0) elevenRound ["double down", "hit"] =
        .ok ({ elevenRound with
                bet := 10 * 2
                userHand := handOf false [deckCard 6, deckCard 5, deckCard 13]
                table := tableOf [5, 7, 10] }, ["hit"]) :=
  ⟨by decide!, by decide!,
    ((playerLoop_doubleDown (fun _ => 0) elevenRound ["hit"]
      (handOf false [deckCard 6, deckCard 5, deckCard 13], tableOf [5, 7, 10])
      (by decide!) (by decide!) (by decide!)).2.2 (by decide!)).1⟩


/-! ## Shuffling -/

/-- Writing an entry over itself changes nothing. -/
theorem set_getElem_same {α : Type} (l : List α) (i : Nat) (h : i < l.length) :
    l.set i l[i] = l := by
  apply List.ext_getElem (by simp)
  intro n h1 h2
  rw [List.getElem_set]
  split
  · rename_i he
    subst he
    rfl
  · rfl

/-- Exchanging an entry with itself changes nothing. -/
theorem swapAt_self {α : Type} (l : List α) (i : Nat) : swapAt l i i = l := by
  unfold swapAt
  cases h : l[i]? with
  | none => rfl
  | some a =>
    simp only
    obtain ⟨hi, rfl⟩ := List.getElem?_eq_some.mp h
    rw [set_getElem_same l i hi, set_getElem_same l i hi]

/-- An exchange keeps the length. -/
theorem length_swapAt {α : Type} (l : List α) (i j : Nat) : (swapAt l i j).length = l.length := by
  unfold swapAt
  split <;> simp

/-- An exchange is a permutation. -/
theorem swapAt_perm {α : Type} [DecidableEq α] (l : List α) (i j : Nat) :
    (swapAt l i j).Perm l := by
  unfold swapAt
  split
  · rename_i a b ha hb
    obtain ⟨hi, rfl⟩ := List.getElem?_eq_some.mp ha
    obtain ⟨hj, rfl⟩ := List.getElem?_eq_some.mp hb
    rw [List.perm_iff_count]
    intro c
    rw [List.count_set _ _ _ _ (by simpa using hj), List.count_set _ _ _ _ hi]
    have hj2 : j < (l.set i l[j]).length := by simpa using hj
    have hget : (l.set i l[j])[j] = if i = j then l[j] else l[j] := by
      rw [List.getElem_set]
    simp only [ite_self] at hget
    rw [hget]
    have h1 : (if (l[i] == c) = true then 1 else 0) ≤ List.count c l := by
      split
      · rename_i he
        have : l[i] = c := by simpa using he
        exact List.count_pos_iff.mpr (this ▸ List.getElem_mem hi)
      · exact Nat.zero_le _
    have h2 : (if (l[j] == c) = true then 1 else 0) ≤ List.count c l := by
      split
      · rename_i he
        have : l[j] = c := by simpa using he
        exact List.count_pos_iff.mpr (this ▸ List.getElem_mem hj)
      · exact Nat.zero_le _
    omega
  · exact List.Perm.refl l

/-- One pass of the loop body of `Shoe::shuffle` on a vector of the recorded size exchanges
position `i` with the position `rand() % (numCards - i)` places further. -/
theorem shuffleStep_eq (rand : Nat → Nat) (cards : List Card) (pos i : Nat)
    (hi : i < cards.length) :
    Shoe.shuffleStep rand (cards.length : Int) (cards, pos) i =
      .ok (swapAt cards i (i + rand pos % (cards.length - i)), pos + 1) := by
  have hmod : ((rand pos : Nat) : Int) % ((cards.length : Int) - (i : Int)) =
      ((rand pos % (cards.length - i) : Nat) : Int) := by
    rw [← Nat.cast_sub (Nat.le_of_lt hi)]
    exact (Int.natCast_mod _ _).symm
  have hlt : rand pos % (cards.length - i) < cards.length - i := Nat.mod_lt _ (by omega)
  unfold Shoe.shuffleStep
  simp only [hmod]
  generalize rand pos % (cards.length - i) = o at hlt
  by_cases ho : o = 0
  · subst ho
    simp [swapAt_self]
  · have hne : ¬ ((o : Int) + (i : Int) = (i : Int)) := by omega
    have hj : i + o < cards.length := by omega
    rw [if_neg hne]
    have e1 : vecAt cards (i : Int) = .ok cards[i] := by
      simp [vecAt, List.getElem?_eq_getElem hi]
    have hcast : ((o : Int) + (i : Int)).toNat = i + o := by omega
    have e2 : vecAt cards ((o : Int) + (i : Int)) = .ok cards[i + o] := by
      unfold vecAt
      rw [if_pos (by omega), hcast]
      simp [List.getElem?_eq_getElem hj]
    have e3 : vecSet cards (i : Int) cards[i + o] = .ok (cards.set i cards[i + o]) := by
      unfold vecSet
      rw [if_pos ⟨by omega, by simpa using hi⟩]
      simp
    have e4 : vecSet (cards.set i cards[i + o]) ((o : Int) + (i : Int)) cards[i] =
        .ok ((cards.set i cards[i + o]).set (i + o) cards[i]) := by
      unfold vecSet
      rw [if_pos ⟨by omega, by rw [hcast]; simpa using hj⟩, hcast]
    simp only [bind, Except.bind, e1, e2, e3, e4, pure, Except.pure]
    simp [swapAt, List.getElem?_eq_getElem hi, List.getElem?_eq_getElem hj]

/-- An exchange behind a prefix leaves the prefix alone. -/
theorem swapAt_append_right {α : Type} (done todo : List α) (o : Nat) :
    swapAt (done ++ todo) done.length (done.length + o) = done ++ swapAt todo 0 o := by
  unfold swapAt
  have h1 : (done ++ todo)[done.length]? = todo[0]? := by
    rw [List.getElem?_append_right (Nat.le_refl _)]
    simp
  have h2 : (done ++ todo)[done.length + o]? = todo[o]? := by
    rw [List.getElem?_append_right (Nat.le_add_right _ _)]
    simp
  rw [h1, h2]
  cases todo[0]? with
  | none => rfl
  | some a =>
    cases todo[o]? with
    | none => rfl
    | some b =>
      simp only
      rw [List.set_append_right _ _ (Nat.le_refl _),
        List.set_append_right _ _ (by simp)]
      simp

/-- The loop of `Shoe::shuffle` from position `i` on, with the first `i` cards already placed,
is the walk `fisherYates` over the cards still to place. -/
theorem shuffleLoop_eq (rand : Nat → Nat) (n : Nat) :
    ∀ (k i pos : Nat) (done todo : List Card), done.length = i → done.length + todo.length = n →
      i + k ≤ n - 1 →
      (List.range' i k).foldlM (Shoe.shuffleStep rand (n : Int)) (done ++ todo, pos) =
        .ok (done ++ fisherYates (drawOffsets rand n i pos k) todo, pos + k) := by
  intro k
  induction k with
  | zero =>
    intro i pos done todo _ _ _
    simp [drawOffsets, fisherYates, pure, Except.pure]
  | succ k ih =>
    intro i pos done todo hd hn hk
    have hlen : (done ++ todo).length = n := by simpa using hn
    have hi : i < (done ++ todo).length := by omega
    have hstep := shuffleStep_eq rand (done ++ todo) pos i hi
    rw [hlen] at hstep
    rw [List.range'_succ, List.foldlM_cons, hstep]
    simp only [bind, Except.bind]
    have hsw : swapAt (done ++ todo) i (i + rand pos % (n - i)) =
        done ++ swapAt todo 0 (rand pos % (n - i)) := by
      rw [← hd]
      exact swapAt_append_right done todo _
    rw [hsw]
    have hl := length_swapAt todo 0 (rand pos % (n - i))
    cases hs : swapAt todo 0 (rand pos % (n - i)) with
    | nil =>
      rw [hs] at hl
      simp only [List.length_nil] at hl
      omega
    | cons b t =>
      rw [hs] at hl
      simp only [List.length_cons] at hl
      have e : done ++ b :: t = (done ++ [b]) ++ t := by simp
      rw [e, ih (i + 1) (pos + 1) (done ++ [b]) t (by simp [hd]) (by simp; omega) (by omega)]
      simp only [drawOffsets, fisherYates, hs, List.append_assoc, List.singleton_append]
      congr 2
      omega

/-- For a shoe whose count matches its vector, `Shoe::shuffle` returns, keeps the count, makes
`numCards - 1` calls of `rand()` and arranges the cards as the walk over the drawn offsets. -/
theorem shuffle_eq (rand : Nat → Nat) (s : Shoe) (pos : Nat)
    (hwf : s.numCards = (s.cards.length : Int)) :
    s.shuffle rand pos =
      .ok ({ numCards := s.numCards
             cards := fisherYates (drawOffsets rand s.cards.length 0 pos (s.cards.length - 1))
               s.cards },
        pos + (s.cards.length - 1)) := by
  unfold Shoe.shuffle
  have hk : (s.numCards - 1).toNat = s.cards.length - 1 := by omega
  rw [hk, hwf, List.range_eq_range']
  have h := shuffleLoop_eq rand s.cards.length (s.cards.length - 1) 0 pos [] s.cards rfl
    (by simp) (by omega)
  simp only [List.nil_append] at h
  rw [h]
  rfl

/-- The walk keeps the length. -/
theorem length_fisherYates {α : Type} (os : List Nat) (l : List α) :
    (fisherYates os l).length = l.length := by
  induction os generalizing l with
  | nil => rfl
  | cons o os ih =>
    have hl := length_swapAt l 0 o
    unfold fisherYates
    cases hs : swapAt l 0 o with
    | nil => rw [hs] at hl; simpa using hl
    | cons b t =>
      rw [hs] at hl
      simp only [List.length_cons, ih t]
      simpa using hl

/-- The walk is a permutation, whatever the offsets. -/
theorem fisherYates_perm {α : Type} [DecidableEq α] (os : List Nat) (l : List α) :
    (fisherYates os l).Perm l := by
  induction os generalizing l with
  | nil => exact List.Perm.refl l
  | cons o os ih =>
    have hp := swapAt_perm l 0 o
    unfold fisherYates
    cases hs : swapAt l 0 o with
    | nil => rw [hs] at hp; exact hp
    | cons b t =>
      rw [hs] at hp
      exact ((ih t).cons b).trans hp

/-- C11: for every shoe (its count matching its vector, as every method leaves it) and every
sequence of values of the random source, `shuffle` returns a shoe whose cards are a permutation
of the cards before the call, with the same count and the same number of cards. -/
theorem shuffle_perm (rand : Nat → Nat) (s : Shoe) (pos : Nat)
    (hwf : s.numCards = (s.cards.length : Int)) :
    ∃ s1 pos1, s.shuffle rand pos = .ok (s1, pos1) ∧ s1.cards.Perm s.cards ∧
      s1.getNumCards = s.getNumCards ∧ s1.cards.length = s.cards.length ∧
      ∀ c, s1.cards.count c = s.cards.count c := by
  refine ⟨_, _, shuffle_eq rand s pos hwf, fisherYates_perm _ _, rfl, length_fisherYates _ _, ?_⟩
  intro c
  exact (fisherYates_perm _ _).count_eq c

/-- Witness for C11: five cards shuffled with the values 7, 8, 9, 10. -/
theorem shuffle_perm_witness :
    ∃ s1 pos1, (shoeOf [1, 2, 3, 4, 5]).shuffle (fun n => n + 7) 0 = .ok (s1, pos1) ∧
      s1.cards.Perm (shoeOf [1, 2, 3, 4, 5]).cards ∧
      s1.getNumCards = (shoeOf [1, 2, 3, 4, 5]).getNumCards ∧
      s1.cards.length = (shoeOf [1, 2, 3, 4, 5]).cards.length ∧
      ∀ c, s1.cards.count c = (shoeOf [1, 2, 3, 4, 5]).cards.count c :=
  shuffle_perm (fun n => n + 7) (shoeOf [1, 2, 3, 4, 5]) 0 (by decide)

/-- C14: for every shoe with `getNumCards() = 0` and every discard pile, `refillIfEmpty` returns
with the shoe holding a permutation of the pile, `getNumCards()` equal to the size of the pile,
the pile empty and the reshuffle reported. -/
theorem refillIfEmpty_empty (rand : Nat → Nat) (s : Shoe) (newCards : List Card) (pos : Nat)
    (h0 : s.getNumCards = 0) :
    ∃ s1 pos1, s.refillIfEmpty rand newCards pos = .ok (s1, [], pos1, true) ∧
      s1.cards.Perm newCards ∧ s1.getNumCards = (newCards.length : Int) ∧
      s1.cards.length = newCards.length := by
  have hn : s.numCards = 0 := h0
  have hs := shuffle_eq rand { numCards := (newCards.length : Int), cards := newCards } pos rfl
  have key : s.refillIfEmpty rand newCards pos =
      .ok ({ numCards := (newCards.length : Int)
             cards := fisherYates (drawOffsets rand newCards.length 0 pos (newCards.length - 1))
               newCards }, [], pos + (newCards.length - 1), true) := by
    unfold Shoe.refillIfEmpty
    rw [if_pos hn]
    simp only [Shoe.setCards, bind, Except.bind, hs, pure, Except.pure]
  exact ⟨_, _, key, fisherYates_perm _ newCards, rfl, length_fisherYates _ newCards⟩

/-- Witness for C14: an emptied shoe refilled from a pile of three cards. -/
theorem refillIfEmpty_empty_witness :
    ∃ s1 pos1, (shoeOf []).refillIfEmpty (fun _ => 1) [deckCard 3, deckCard 20, deckCard 41] 4 =
        .ok (s1, [], pos1, true) ∧
      s1.cards.Perm [deckCard 3, deckCard 20, deckCard 41] ∧
      s1.getNumCards = (([deckCard 3, deckCard 20, deckCard 41] : List Card).length : Int) ∧
      s1.cards.length = ([deckCard 3, deckCard 20, deckCard 41] : List Card).length :=
  refillIfEmpty_empty (fun _ => 1) (shoeOf []) [deckCard 3, deckCard 20, deckCard 41] 4
    (by decide)

/-- C15: for every shoe with `getNumCards() > 0` and every discard pile, `refillIfEmpty` changes
nothing: same shoe, same pile, no call of `rand()` and no reshuffle reported. -/
theorem refillIfEmpty_nonempty (rand : Nat → Nat) (s : Shoe) (newCards : List Card) (pos : Nat)
    (hpos : s.getNumCards > 0) :
    s.refillIfEmpty rand newCards pos = .ok (s, newCards, pos, false) := by
  have hn : ¬ s.numCards = 0 := by
    have : s.numCards > 0 := hpos
    omega
  unfold Shoe.refillIfEmpty
  rw [if_neg hn]
  rfl

/-- Witness for C15: a shoe of two cards and a pile of one. -/
theorem refillIfEmpty_nonempty_witness :
    (shoeOf [7, 8]).refillIfEmpty (fun _ => 1) [deckCard 3] 4 =
      .ok (shoeOf [7, 8], [deckCard 3], 4, false) :=
  refillIfEmpty_nonempty (fun _ => 1) (shoeOf [7, 8]) [deckCard 3] 4 (by decide)


/-! ## Dealing from the shoe -/

/-- On a shoe that holds a card, `dealCard` returns the last card and keeps the others. -/
theorem dealCard_concat (n : Int) (rest : List Card) (c : Card) :
    Shoe.dealCard { numCards := n, cards := rest ++ [c] } =
      .ok (c, { numCards := n - 1, cards := rest }) := by
  simp [Shoe.dealCard]

/-- On an empty vector `dealCard` has no result. -/
theorem dealCard_nil (n : Int) :
    Shoe.dealCard { numCards := n, cards := [] } = .error .emptyShoe := by
  simp [Shoe.dealCard]

/-- Drawing `m` cards from a shoe that holds at least `m` leaves the first cards in place. -/
theorem drawCards_le (m : Nat) (s : Shoe) (hm : m ≤ s.cards.length) :
    drawCards m s =
      .ok { numCards := s.numCards - (m : Int), cards := s.cards.take (s.cards.length - m) } := by
  induction m generalizing s with
  | zero => simp [drawCards]
  | succ m ih =>
    obtain ⟨n, cards⟩ := s
    rcases List.eq_nil_or_concat cards with h | ⟨rest, c, h⟩
    · subst h
      simp at hm
    · subst h
      rw [List.concat_eq_append] at hm ⊢
      simp only [List.length_append, List.length_singleton] at hm
      simp only [drawCards, dealCard_concat, bind, Except.bind]
      rw [ih _ (by simpa using Nat.le_of_succ_le_succ hm)]
      simp only [List.length_append, List.length_singleton]
      have e1 : rest.length + 1 - (m + 1) = rest.length - m := by omega
      rw [e1, List.take_append_of_le_length (by omega)]
      congr 2
      push_cast
      omega

/-- Drawing more cards than the shoe holds has no result. -/
theorem drawCards_gt (m : Nat) (s : Shoe) (hm : s.cards.length < m) :
    drawCards m s = .error .emptyShoe := by
  induction m generalizing s with
  | zero => simp at hm
  | succ m ih =>
    obtain ⟨n, cards⟩ := s
    rcases List.eq_nil_or_concat cards with h | ⟨rest, c, h⟩
    · subst h
      simp [drawCards, dealCard_nil, bind, Except.bind]
    · subst h
      rw [List.concat_eq_append] at hm ⊢
      simp only [List.length_append, List.length_singleton] at hm
      simp only [drawCards, dealCard_concat, bind, Except.bind]
      exact ih _ (by simpa using Nat.lt_of_succ_lt_succ hm)

/-- From a shoe whose count matches its vector, the draws that return with a count of zero are
exactly the draws of all its cards. -/
theorem drawCards_zero_iff (m : Nat) (s : Shoe) (hwf : s.numCards = (s.cards.length : Int)) :
    (∃ s1, drawCards m s = .ok s1 ∧ s1.getNumCards = 0) ↔ m = s.cards.length := by
  constructor
  · rintro ⟨s1, h1, h2⟩
    by_cases hm : m ≤ s.cards.length
    · rw [drawCards_le m s hm] at h1
      have h3 := Except.ok.inj h1
      rw [← h3] at h2
      have h4 : s.numCards - (m : Int) = 0 := h2
      omega
    · rw [drawCards_gt m s (by omega)] at h1
      exact absurd h1 (by simp)
  · intro hm
    refine ⟨_, drawCards_le m s (by omega), ?_⟩
    show s.numCards - (m : Int) = 0
    omega

/-- C13, as stated, fails for a deck count whose product with 52 leaves the range of `int`: the
shoe built for 82595525 decks is emptied by four draws. -/
theorem drawCards_overflow :
    ∃ s s1, Shoe.new 82595525 = .ok s ∧ drawCards 4 s = .ok s1 ∧ s1.getNumCards = 0 ∧
      ((4 : Nat) : Int) < 82595525 * 52 :=
  ⟨_, _, rfl, rfl, rfl, by decide⟩

/-- C13 (amended): for every shoe holding k ≥ 1 cards, `dealCard` returns the card at the end,
leaves the first k - 1 cards as they were and makes `getNumCards()` k - 1; and for every numDecks
with 1 ≤ numDecks ≤ 41297762 (so that numDecks * 52 fits a 32-bit int), the draws, with no refill,
that leave `getNumCards() = 0` on the freshly built shoe, or on that shoe shuffled, are exactly
the draws of numDecks * 52 cards. -/
theorem dealCard_draws (numDecks : Int) (h1 : 1 ≤ numDecks) (hmax : numDecks ≤ 41297762) :
    (∀ (s : Shoe) (k : Nat), 1 ≤ k → s.cards.length = k → s.getNumCards = (k : Int) →
        ∃ c s1, s.cards.getLast? = some c ∧ s.dealCard = .ok (c, s1) ∧
          s1.cards = s.cards.take (k - 1) ∧ s.cards = s1.cards ++ [c] ∧
          s1.getNumCards = (k : Int) - 1) ∧
      ∃ s0, Shoe.new numDecks = .ok s0 ∧
        (∀ m : Nat, (∃ s1, drawCards m s0 = .ok s1 ∧ s1.getNumCards = 0) ↔
          (m : Int) = numDecks * 52) ∧
        ∀ (rand : Nat → Nat) (pos : Nat), ∃ sh pos1, s0.shuffle rand pos = .ok (sh, pos1) ∧
          ∀ m : Nat, (∃ s1, drawCards m sh = .ok s1 ∧ s1.getNumCards = 0) ↔
            (m : Int) = numDecks * 52 := by
  constructor
  · intro s k hk hlen hnum
    obtain ⟨n, cards⟩ := s
    rcases List.eq_nil_or_concat cards with h | ⟨rest, c, h⟩
    · subst h
      simp at hlen
      omega
    · subst h
      rw [List.concat_eq_append] at hlen ⊢
      simp only [List.length_append, List.length_singleton] at hlen
      refine ⟨c, _, by simp, dealCard_concat n rest c, ?_, rfl, ?_⟩
      · have : k - 1 = rest.length := by omega
        simp [this]
      · have : n = (k : Int) := hnum
        show n - 1 = (k : Int) - 1
        omega
  · have hnew := Shoe.new_of_fits numDecks h1 hmax
    refine ⟨_, hnew, ?_, ?_⟩
    · intro m
      rw [drawCards_zero_iff m _ (by simp; omega)]
      simp only [List.length_map, List.length_range]
      omega
    · intro rand pos
      refine ⟨_, _, shuffle_eq rand _ pos (Shoe.new_wf numDecks _ hnew), ?_⟩
      intro m
      rw [drawCards_zero_iff m _ (by simp [length_fisherYates]; omega)]
      simp only [length_fisherYates, List.length_map, List.length_range]
      omega

/-- Witness for C13 (amended) with one deck. -/
theorem dealCard_draws_witness :
    ∃ s0, Shoe.new 1 = .ok s0 ∧
      (∀ m : Nat, (∃ s1, drawCards m s0 = .ok s1 ∧ s1.getNumCards = 0) ↔ (m : Int) = 1 * 52) ∧
      ∀ (rand : Nat → Nat) (pos : Nat), ∃ sh pos1, s0.shuffle rand pos = .ok (sh, pos1) ∧
        ∀ m : Nat, (∃ s1, drawCards m sh = .ok s1 ∧ s1.getNumCards = 0) ↔ (m : Int) = 1 * 52 :=
  (dealCard_draws 1 (by decide) (by decide)).2


/-! ## Hand valuation and the order of the cards -/

/-- The two sums of the first loop of `addCard` do not depend on the order of the cards. -/
theorem sumLoop_perm (l1 l2 : List Card) (hp : l1.Perm l2) :
    BlackjackHand.sumLoop l1 = BlackjackHand.sumLoop l2 := by
  rw [sumLoop_eq, sumLoop_eq, hp.countP_eq]
  unfold rawSum
  rw [(hp.map Card.value).sum_eq]

/-- A non-empty hand built from the empty hand is the valuation of its cards from scratch. -/
theorem handOf_from_scratch (b : Bool) (cs : List Card) (hne : cs ≠ []) :
    handOf b cs =
      { handValue :=
          (BlackjackHand.aceLoop (BlackjackHand.sumLoop cs).2
            ((BlackjackHand.sumLoop cs).1, false)).1
        cards := cs
        soft :=
          (BlackjackHand.aceLoop (BlackjackHand.sumLoop cs).2
            ((BlackjackHand.sumLoop cs).1, false)).2 } := by
  rcases List.eq_nil_or_concat cs with h | ⟨l, c, rfl⟩
  · exact absurd h hne
  · rw [List.concat_eq_append, handOf_concat]
    unfold BlackjackHand.addCard
    rw [handOf_cards]

/-- C18: for every list of cards and every permutation of it, adding the cards with `addCard`
in either order gives the same `value()` and the same `isSoft()` (from the same empty hand, and
for a non-empty list from any two empty hands); and an `addCard` gives the valuation computed
from scratch on the cards then held, whatever value and soft flag the hand had before. -/
theorem handOf_perm (l1 l2 : List Card) (hp : l1.Perm l2) :
    (∀ b : Bool, (handOf b l1).value = (handOf b l2).value ∧
        (handOf b l1).isSoft = (handOf b l2).isSoft) ∧
      (l1 ≠ [] → ∀ b1 b2 : Bool, (handOf b1 l1).value = (handOf b2 l2).value ∧
        (handOf b1 l1).isSoft = (handOf b2 l2).isSoft) ∧
      (∀ (h : BlackjackHand) (c : Card) (v : Int) (b : Bool),
        { h with handValue := v, soft := b }.addCard c = h.addCard c ∧
        (h.addCard c).value =
          (BlackjackHand.aceLoop (BlackjackHand.sumLoop (h.cards ++ [c])).2
            ((BlackjackHand.sumLoop (h.cards ++ [c])).1, false)).1 ∧
        (h.addCard c).isSoft =
          (BlackjackHand.aceLoop (BlackjackHand.sumLoop (h.cards ++ [c])).2
            ((BlackjackHand.sumLoop (h.cards ++ [c])).1, false)).2 ∧
        h.addCard c = handOf b (h.cards ++ [c])) := by
  have hne : l1 ≠ [] → ∀ b1 b2 : Bool, (handOf b1 l1).value = (handOf b2 l2).value ∧
      (handOf b1 l1).isSoft = (handOf b2 l2).isSoft := by
    intro h1 b1 b2
    have h2 : l2 ≠ [] := fun h => h1 (by rw [h] at hp; exact hp.eq_nil)
    rw [handOf_from_scratch b1 l1 h1, handOf_from_scratch b2 l2 h2, sumLoop_perm l1 l2 hp]
    exact ⟨rfl, rfl⟩
  refine ⟨?_, hne, ?_⟩
  · intro b
    by_cases h1 : l1 = []
    · have h2 : l2 = [] := by rw [h1] at hp; exact hp.symm.eq_nil
      rw [h1, h2]
      exact ⟨rfl, rfl⟩
    · exact hne h1 b b
  · intro h c v b
    refine ⟨rfl, rfl, rfl, ?_⟩
    rw [handOf_from_scratch b _ (by simp)]
    rfl

/-- Witness for C18: Nine, Ace, Ace and Ace, Nine, Ace are both a soft 21. -/
theorem handOf_perm_witness :
    ((handOf false [deckCard 9, deckCard 1, deckCard 14]).value =
        (handOf true [deckCard 1, deckCard 9, deckCard 14]).value ∧
      (handOf false [deckCard 9, deckCard 1, deckCard 14]).isSoft =
        (handOf true [deckCard 1, deckCard 9, deckCard 14]).isSoft) ∧
      (handOf false [deckCard 9, deckCard 1, deckCard 14]).value = 21 :=
  ⟨(handOf_perm [deckCard 9, deckCard 1, deckCard 14] [deckCard 1, deckCard 9, deckCard 14]
      (List.Perm.swap _ _ _)).2.1 (by decide) false true, by decide⟩

/-- With every card worth at least 1 a hand holds no more cards than its raw sum. -/
theorem length_le_rawSum (cs : List Card) (h : ∀ c ∈ cs, 1 ≤ c.value) :
    (cs.length : Int) ≤ rawSum cs := by
  induction cs with
  | nil => simp [rawSum]
  | cons c cs ih =>
    have h1 := h c (List.mem_cons_self c cs)
    have h2 := ih (fun d hd => h d (List.mem_cons_of_mem c hd))
    simp only [rawSum, List.map_cons, List.sum_cons, List.length_cons] at h2 ⊢
    push_cast
    omega

/-- C20, as stated, fails on the hand that holds a single Ace: it is soft and worth 11. -/
theorem soft_eleven :
    (handOf false [deckCard 1]).isSoft = true ∧ (handOf false [deckCard 1]).value = 11 ∧
      ¬ (12 ≤ (handOf false [deckCard 1]).value) := by
  decide

/-- C20 (amended): for every hand of one or more deck cards with `isSoft()` true,
11 ≤ `value()` ≤ 21, and 12 ≤ `value()` once it holds two cards; and after `addCard` of any
deck card (point value 1..10) the new `value()` is still at most 21. -/
theorem soft_not_bust (b : Bool) (ns : List Int) (hne : ns ≠ [])
    (hns : ∀ n ∈ ns, 1 ≤ n ∧ n ≤ 52)
    (hsoft : (handOf b (ns.map deckCard)).isSoft = true) :
    11 ≤ (handOf b (ns.map deckCard)).value ∧ (handOf b (ns.map deckCard)).value ≤ 21 ∧
      (2 ≤ ns.length → 12 ≤ (handOf b (ns.map deckCard)).value) ∧
      ∀ m : Int, 1 ≤ m → m ≤ 52 →
        1 ≤ (deckCard m).value ∧ (deckCard m).value ≤ 10 ∧
          ((handOf b (ns.map deckCard)).addCard (deckCard m)).value ≤ 21 := by
  have hne2 : ns.map deckCard ≠ [] := by simpa using hne
  have hsound := deckCards_sound ns hns
  have hcnt := countAces_le_rawSum _ hsound
  have hpos : ∀ c ∈ ns.map deckCard, 1 ≤ c.value := by
    intro c hc
    obtain ⟨n, hn, rfl⟩ := List.mem_map.mp hc
    exact (deckCard_facts Card.default n (hns n hn).1 (hns n hn).2).1
  have hlen := length_le_rawSum _ hpos
  rw [handOf_eq b _ hne2 hsound] at hsoft ⊢
  simp only [BlackjackHand.isSoft, decide_eq_true_eq] at hsoft
  simp only [BlackjackHand.value, if_pos hsoft]
  have hc1 : (1 : Int) ≤ ((ns.map deckCard).countP (fun d => decide (d.rank = "Ace")) : Nat) := by
    have := hsoft.1
    omega
  refine ⟨by omega, by omega, ?_, ?_⟩
  · intro h2
    simp only [List.length_map] at hlen
    omega
  · intro m hm1 hm52
    have hf := deckCard_facts Card.default m hm1 hm52
    refine ⟨hf.1, hf.2.1, ?_⟩
    have hv : ∀ d ∈ ns.map deckCard ++ [deckCard m],
        0 ≤ d.value ∧ (d.rank = "Ace" → d.value = 1) := by
      intro d hd
      rcases List.mem_append.mp hd with h | h
      · exact hsound d h
      · rw [List.mem_singleton.mp h]
        exact ⟨by have := hf.1; unfold deckCard; omega, hf.2.2.1.mp⟩
    rw [addCard_eq _ _ hv]
    have hraw : rawSum (ns.map deckCard ++ [deckCard m]) =
        rawSum (ns.map deckCard) + (deckCard m).value := by
      simp [rawSum]
    have hf1 : 1 ≤ (deckCard m).value := hf.1
    have hf2 : (deckCard m).value ≤ 10 := hf.2.1
    simp only [hraw]
    split <;> omega

/-- Witness for C20 (amended): Ace, Five is a soft 16; a King after it gives a hard 16. -/
theorem soft_not_bust_witness :
    (handOf false ([1, 5].map deckCard)).isSoft = true ∧
      (handOf false ([1, 5].map deckCard)).value = 16 ∧
      ((handOf false ([1, 5].map deckCard)).addCard (deckCard 13)).value ≤ 21 :=
  ⟨by decide, by decide,
    ((soft_not_bust false [1, 5] (by decide) (by decide) (by decide)).2.2.2 13
      (by decide) (by decide)).2.2⟩


/-! ## Draws at the table -/

/-- What a draw does, spelled out: the hand gets the last card of the shoe; if the recorded
count thereby reaches zero the shoe becomes the shuffled discard pile and the pile is emptied,
otherwise the shoe just loses that card. -/
theorem deal_eq (rand : Nat → Nat) (hand : BlackjackHand) (t : Table) (rest : List Card)
    (c : Card) (hc : t.shoe.cards = rest ++ [c]) :
    dealCardAndRefillShoeIfEmpty rand hand t =
      .ok (hand.addCard c,
        if t.shoe.numCards - 1 = 0 then
          { shoe :=
              { numCards := (t.discardedCards.length : Int)
                cards := fisherYates
                  (drawOffsets rand t.discardedCards.length 0 t.randPos
                    (t.discardedCards.length - 1)) t.discardedCards }
            discardedCards := []
            randPos := t.randPos + (t.discardedCards.length - 1) }
        else
          { shoe := { numCards := t.shoe.numCards - 1, cards := rest }
            discardedCards := t.discardedCards
            randPos := t.randPos }) := by
  obtain ⟨⟨n, cards⟩, disc, pos⟩ := t
  simp only at hc
  subst hc
  unfold dealCardAndRefillShoeIfEmpty
  simp only [dealCard_concat, bind, Except.bind]
  by_cases h0 : n - 1 = 0
  · have hs := shuffle_eq rand { numCards := (disc.length : Int), cards := disc } pos rfl
    simp only [Shoe.refillIfEmpty, h0, if_true, Shoe.setCards, bind, Except.bind, hs, pure,
      Except.pure]
  · simp only [Shoe.refillIfEmpty, h0, if_false, pure, Except.pure]

/-- A draw from an empty vector has no result. -/
theorem deal_nil (rand : Nat → Nat) (hand : BlackjackHand) (t : Table)
    (hc : t.shoe.cards = []) :
    dealCardAndRefillShoeIfEmpty rand hand t = .error .emptyShoe := by
  obtain ⟨⟨n, cards⟩, disc, pos⟩ := t
  simp only at hc
  subst hc
  simp [dealCardAndRefillShoeIfEmpty, dealCard_nil, bind, Except.bind]

/-- A draw either returns or stops on the empty shoe; when it returns, the card drawn was in the
shoe and every card then in the shoe or on the discard pile was in one of them before. -/
theorem deal_mem (rand : Nat → Nat) (hand : BlackjackHand) (t : Table) :
    dealCardAndRefillShoeIfEmpty rand hand t = .error .emptyShoe ∨
      ∃ c d, dealCardAndRefillShoeIfEmpty rand hand t = .ok d ∧ c ∈ t.shoe.cards ∧
        d.1 = hand.addCard c ∧
        ∀ x ∈ d.2.shoe.cards ++ d.2.discardedCards, x ∈ t.shoe.cards ++ t.discardedCards := by
  rcases List.eq_nil_or_concat t.shoe.cards with h | ⟨rest, c, h⟩
  · exact Or.inl (deal_nil rand hand t h)
  · right
    rw [List.concat_eq_append] at h
    refine ⟨c, _, deal_eq rand hand t rest c h, by simp [h], rfl, ?_⟩
    intro x hx
    split at hx
    · simp only [List.append_nil] at hx
      exact List.mem_append_right _ ((fisherYates_perm _ _).mem_iff.mp hx)
    · rw [h]
      simp only [List.mem_append] at hx ⊢
      rcases hx with hx | hx
      · exact Or.inl (Or.inl hx)
      · exact Or.inr hx

/-! ## The dealer loop ends -/

/-- After `addCard`, with every card worth at least 1, the value is the raw sum, or the raw sum
plus 10 when the hand is soft. -/
theorem addCard_value (h : BlackjackHand) (c : Card)
    (hv : ∀ d ∈ h.cards ++ [c], 1 ≤ d.value) :
    (h.addCard c).cards = h.cards ++ [c] ∧
      ((h.addCard c).isSoft = true → (h.addCard c).value = rawSum (h.cards ++ [c]) + 10) ∧
      ((h.addCard c).isSoft = false → (h.addCard c).value = rawSum (h.cards ++ [c])) ∧
      rawSum (h.cards ++ [c]) ≤ (h.addCard c).value ∧
      ((h.cards ++ [c]).length : Int) ≤ rawSum (h.cards ++ [c]) := by
  have hlen := length_le_rawSum _ hv
  have hcnt : (((h.cards ++ [c]).countP (fun d => decide (d.rank = "Ace")) : Nat) : Int) ≤
      rawSum (h.cards ++ [c]) := by
    have := List.countP_le_length (fun d : Card => decide (d.rank = "Ace")) (l := h.cards ++ [c])
    omega
  simp only [BlackjackHand.addCard, BlackjackHand.isSoft, BlackjackHand.value, sumLoop_eq,
    aceLoop_eq _ _ hcnt]
  refine ⟨trivial, ?_, ?_, ?_, hlen⟩
  · split <;> simp
  · split <;> simp
  · split <;> simp

/-- While the dealer must draw, the raw sum of a hand last changed by `addCard`, with every card
worth at least 1, is at most 16. -/
theorem rawSum_le_of_mustDraw {M : Type} (r : Round M) (h0 : BlackjackHand) (c : Card)
    (hd : r.dealerHand = h0.addCard c) (hv : ∀ d ∈ h0.cards ++ [c], 1 ≤ d.value)
    (hm : dealerMustDraw r = true) : rawSum r.dealerHand.cards ≤ 16 := by
  obtain ⟨hc, hs, _, hge, _⟩ := addCard_value h0 c hv
  rw [dealerMustDraw_iff, hd] at hm
  rw [hd, hc]
  rcases hm.2 with h | ⟨h1, h2⟩
  · omega
  · have := hs h2
    omega

/-- More fuel does not change a run of the dealer loop that did not run out of fuel. -/
theorem dealerLoop_fuel_succ {M : Type} (rand : Nat → Nat) (fuel : Nat) (r : Round M)
    (h : dealerLoop rand fuel r ≠ .error .outOfFuel) :
    dealerLoop rand (fuel + 1) r = dealerLoop rand fuel r := by
  induction fuel generalizing r with
  | zero =>
    by_cases hm : dealerMustDraw r = true
    · simp [dealerLoop, hm] at h
    · simp [dealerLoop, hm]
  | succ n ih =>
    by_cases hm : dealerMustDraw r = true
    · rw [dealerLoop] at h ⊢
      simp only [hm, if_true, bind, Except.bind] at h ⊢
      cases hd : dealCardAndRefillShoeIfEmpty rand r.dealerHand r.table with
      | error e => rw [dealerLoop]; simp [hm, hd, bind, Except.bind]
      | ok d =>
        rw [hd] at h
        simp only at h ⊢
        rw [ih _ h]
        conv_rhs => rw [dealerLoop]
        simp [hm, hd, bind, Except.bind]
    · rw [dealerLoop, dealerLoop]
      simp [hm]

/-- Fuel beyond what a finished run needed is not used. -/
theorem dealerLoop_fuel_le {M : Type} (rand : Nat → Nat) (f g : Nat) (r : Round M) (hfg : f ≤ g)
    (h : dealerLoop rand f r ≠ .error .outOfFuel) :
    dealerLoop rand g r = dealerLoop rand f r := by
  induction g with
  | zero =>
    have : f = 0 := by omega
    rw [this]
  | succ g ih =>
    by_cases hf : f = g + 1
    · rw [hf]
    · have h1 := ih (by omega)
      rw [dealerLoop_fuel_succ rand g r (by rw [h1]; exact h), h1]

/-- The dealer loop with enough fuel for the raw sum to reach 17 does not run out of fuel, stops
early only on the empty shoe, and draws no more cards than the raw sum is short of 17. -/
theorem dealerLoop_bounded {M : Type} (rand : Nat → Nat) :
    ∀ (fuel : Nat) (r : Round M) (h0 : BlackjackHand) (c : Card),
      r.dealerHand = h0.addCard c →
      (∀ x ∈ (h0.cards ++ [c]) ++ (r.table.shoe.cards ++ r.table.discardedCards), 1 ≤ x.value) →
      17 ≤ (fuel : Int) + rawSum r.dealerHand.cards →
      dealerLoop rand fuel r ≠ .error .outOfFuel ∧
        (∀ e, dealerLoop rand fuel r = .error e → e = .emptyShoe) ∧
        ∀ r1, dealerLoop rand fuel r = .ok r1 →
          (r1.dealerHand.cards.length : Int) + rawSum r.dealerHand.cards ≤
              (r.dealerHand.cards.length : Int) + 17 ∨
            r1.dealerHand.cards.length = r.dealerHand.cards.length := by
  intro fuel
  induction fuel with
  | zero =>
    intro r h0 c hd hv hf
    by_cases hm : dealerMustDraw r = true
    · have := rawSum_le_of_mustDraw r h0 c hd
        (fun d hd1 => hv d (List.mem_append_left _ hd1)) hm
      omega
    · simp only [dealerLoop, hm, if_false, Bool.false_eq_true]
      refine ⟨by simp, by simp, ?_⟩
      intro r1 h1
      rw [← Except.ok.inj h1]
      exact Or.inr rfl
  | succ n ih =>
    intro r h0 c hd hv hf
    by_cases hm : dealerMustDraw r = true
    · have hraw := rawSum_le_of_mustDraw r h0 c hd
        (fun d hd1 => hv d (List.mem_append_left _ hd1)) hm
      have hcards : r.dealerHand.cards = h0.cards ++ [c] := by rw [hd]; rfl
      rw [dealerLoop]
      simp only [hm, if_true, bind, Except.bind]
      rcases deal_mem rand r.dealerHand r.table with he | ⟨c1, d, hok, hc1, hd1, hmem⟩
      · rw [he]
        exact ⟨by simp, fun e h => by simpa using h.symm, fun r1 h => by simp at h⟩
      · rw [hok]
        simp only
        have hv1 : ∀ x ∈ (r.dealerHand.cards ++ [c1]) ++
            (d.2.shoe.cards ++ d.2.discardedCards), 1 ≤ x.value := by
          intro x hx
          rcases List.mem_append.mp hx with h | h
          · rcases List.mem_append.mp h with h | h
            · exact hv x (List.mem_append_left _ (hcards ▸ h))
            · rw [List.mem_singleton.mp h]
              exact hv c1 (List.mem_append_right _ (List.mem_append_left _ hc1))
          · exact hv x (List.mem_append_right _ (hmem x h))
        have hc1v : 1 ≤ c1.value :=
          hv c1 (List.mem_append_right _ (List.mem_append_left _ hc1))
        have hraw1 :
            rawSum (r.dealerHand.cards ++ [c1]) = rawSum r.dealerHand.cards + c1.value := by
          simp [rawSum]
        have hnew : ({ r with dealerHand := d.1, table := d.2 } : Round M).dealerHand.cards =
            r.dealerHand.cards ++ [c1] := by
          simp only [hd1]
          rfl
        obtain ⟨g1, g2, g3⟩ := ih { r with dealerHand := d.1, table := d.2 } r.dealerHand c1 hd1
          hv1 (by rw [hnew, hraw1]; push_cast at hf ⊢; omega)
        refine ⟨g1, g2, ?_⟩
        intro r1 h1
        left
        have h2 := g3 r1 h1
        rw [hnew, hraw1] at h2
        simp only [List.length_append, List.length_singleton] at h2
        push_cast at h2
        rcases h2 with h2 | h2
        · omega
        · rw [h2]
          push_cast
          omega
    · rw [dealerLoop]
      simp only [hm, if_false, Bool.false_eq_true]
      refine ⟨by simp, by simp, ?_⟩
      intro r1 h1
      rw [← Except.ok.inj h1]
      exact Or.inr rfl

/-- C17: starting from the dealer's one-card hand, with every card in the hand, the shoe and
the discard pile worth 1 to 10, sixteen unrollings of the dealer loop are enough: the run does not
run out of fuel, more fuel gives the same run, it can stop without a result only on an empty
shoe, and when it returns the loop condition is false and at most 16 cards were drawn. The
reason: each card raises the raw sum by at least 1 and the loop does not go on once the raw sum
has reached 17. -/
theorem dealerLoop_terminates {M : Type} (rand : Nat → Nat) (r : Round M) (b : Bool) (c : Card)
    (hd : r.dealerHand = (BlackjackHand.new b).addCard c)
    (hv : ∀ x ∈ c :: (r.table.shoe.cards ++ r.table.discardedCards),
      1 ≤ x.value ∧ x.value ≤ 10) :
    dealerLoop rand 16 r ≠ .error .outOfFuel ∧
      (∀ fuel, 16 ≤ fuel → dealerLoop rand fuel r = dealerLoop rand 16 r) ∧
      (∀ e, dealerLoop rand 16 r = .error e → e = .emptyShoe) ∧
      (∀ r1, dealerLoop rand 16 r = .ok r1 →
        dealerMustDraw r1 = false ∧ r1.dealerHand.cards.length ≤ 1 + 16) ∧
      (∀ (r2 : Round M) (h0 : BlackjackHand) (x : Card), r2.dealerHand = h0.addCard x →
        (∀ d ∈ h0.cards ++ [x], 1 ≤ d.value) →
        rawSum h0.cards < rawSum r2.dealerHand.cards ∧
          (17 ≤ rawSum r2.dealerHand.cards → dealerMustDraw r2 = false)) := by
  have hcards : r.dealerHand.cards = [c] := by rw [hd]; rfl
  have hv1 : ∀ x ∈ ((BlackjackHand.new b).cards ++ [c]) ++
      (r.table.shoe.cards ++ r.table.discardedCards), 1 ≤ x.value := by
    intro x hx
    have : x ∈ c :: (r.table.shoe.cards ++ r.table.discardedCards) := by
      simpa [BlackjackHand.new] using hx
    exact (hv x this).1
  have hc : 1 ≤ c.value := (hv c (List.mem_cons_self _ _)).1
  have hraw : rawSum r.dealerHand.cards = c.value := by rw [hcards]; simp [rawSum]
  obtain ⟨g1, g2, g3⟩ := dealerLoop_bounded rand 16 r (BlackjackHand.new b) c hd hv1
    (by rw [hraw]; omega)
  refine ⟨g1, fun fuel hf => dealerLoop_fuel_le rand 16 fuel r hf g1, g2, ?_, ?_⟩
  · intro r1 h1
    refine ⟨(dealerLoop_ok rand 16 r r1 h1).1, ?_⟩
    have h2 := g3 r1 h1
    rw [hraw, hcards] at h2
    simp only [List.length_singleton] at h2
    rcases h2 with h2 | h2
    · push_cast at h2
      omega
    · omega
  · intro r2 h0 x hd2 hv2
    have hx : 1 ≤ x.value := hv2 x (by simp)
    have hc2 : r2.dealerHand.cards = h0.cards ++ [x] := by rw [hd2]; rfl
    constructor
    · rw [hc2]
      simp only [rawSum, List.map_append, List.sum_append, List.map_cons, List.map_nil,
        List.sum_cons, List.sum_nil]
      omega
    · intro h17
      by_contra hm
      have hm1 : dealerMustDraw r2 = true := by simpa using hm
      have := rawSum_le_of_mustDraw r2 h0 x hd2 hv2 hm1
      omega

/-- Witness for C17: the dealer starts on an Eight and stops on 18 after one draw. -/
theorem dealerLoop_terminates_witness :
    dealerLoop (fun _ => 0) 16 elevenRound ≠ .error .outOfFuel ∧
      dealerLoop (fun _ => 0) 16 elevenRound =
        .ok { elevenRound with
              table := tableOf [5, 7, 10]
              dealerHand := handOf false [deckCard 8, deckCard 13] } :=
  ⟨(dealerLoop_terminates (fun _ => 0) elevenRound false (deckCard 8) (by decide!)
      (by decide)).1, by decide!⟩


/-! ## Card conservation -/

/-- A draw from a shoe whose count matches its vector keeps it so and moves exactly one card
from the shoe and the discard pile, taken together, into the hand. -/
theorem deal_conserve (rand : Nat → Nat) (hand : BlackjackHand) (t : Table)
    (d : BlackjackHand × Table) (hwf : t.shoe.numCards = (t.shoe.cards.length : Int))
    (h : dealCardAndRefillShoeIfEmpty rand hand t = .ok d) :
    ∃ c, d.1 = hand.addCard c ∧ d.2.shoe.numCards = (d.2.shoe.cards.length : Int) ∧
      (d.2.shoe.cards ++ d.2.discardedCards ++ [c]).Perm (t.shoe.cards ++ t.discardedCards) ∧
      (d.2.shoe.cards = [] → t.shoe.cards.length + t.discardedCards.length = 1) := by
  rcases List.eq_nil_or_concat t.shoe.cards with hn | ⟨rest, c, hc⟩
  · rw [deal_nil rand hand t hn] at h
    exact absurd h (by simp)
  · rw [List.concat_eq_append] at hc
    rw [deal_eq rand hand t rest c hc] at h
    have hd := (Except.ok.inj h).symm
    have hlen : t.shoe.numCards = (rest.length : Int) + 1 := by
      rw [hwf, hc]
      simp
    refine ⟨c, by rw [hd], ?_, ?_, ?_⟩
    · rw [hd]
      simp only
      split
      · simp [length_fisherYates]
      · simp only
        omega
    · rw [hd, hc]
      simp only
      split
      · rename_i h0
        have hr : rest = [] := List.eq_nil_of_length_eq_zero (by omega)
        subst hr
        simp only [List.append_nil, List.nil_append]
        exact ((fisherYates_perm _ t.discardedCards).append_right [c]).trans
          List.perm_append_comm
      · simp only [List.append_assoc]
        exact List.Perm.append_left rest List.perm_append_comm
    · rw [hd, hc]
      simp only
      split
      · rename_i h0
        intro he
        have h1 := length_fisherYates (drawOffsets rand t.discardedCards.length 0 t.randPos
          (t.discardedCards.length - 1)) t.discardedCards
        simp only at he
        rw [he] at h1
        simp only [List.length_nil] at h1
        simp only [List.length_append, List.length_singleton]
        omega
      · rename_i h0
        intro he
        simp only at he
        subst he
        simp at hlen
        omega

/-- In every state a session can go through, the count of the shoe matches its vector, and the
shoe, the discard pile and the two hands together hold the cards of the shoe as built. -/
theorem reachable_conserved (rand : Nat → Nat) (numDecks : Int) (s0 : Shoe)
    (hnew : Shoe.new numDecks = .ok s0) (t : Table) (dealer user : BlackjackHand)
    (hr : Reachable rand numDecks t dealer user) :
    t.shoe.numCards = (t.shoe.cards.length : Int) ∧
      (t.shoe.cards ++ t.discardedCards ++ dealer.cards ++ user.cards).Perm s0.cards := by
  induction hr with
  | start s0a s1 pos b1 b2 hn hs =>
    rw [hnew] at hn
    have he : s0 = s0a := Except.ok.inj hn
    subst he
    have hwf := Shoe.new_wf numDecks s0 hnew
    rw [shuffle_eq rand s0 0 hwf] at hs
    have h1 := (Prod.mk.inj (Except.ok.inj hs)).1
    rw [← h1]
    refine ⟨?_, ?_⟩
    · simp only [length_fisherYates]
      exact hwf
    · simp only [BlackjackHand.new, List.append_nil]
      exact fisherYates_perm _ _
  | dealDealer t dealer user d _ hd ih =>
    obtain ⟨c, hc, hwf1, hp, _⟩ := deal_conserve rand dealer t d ih.1 hd
    refine ⟨hwf1, ?_⟩
    have hcards : d.1.cards = dealer.cards ++ [c] := by rw [hc]; rfl
    rw [hcards]
    rw [List.perm_iff_count] at hp ⊢
    intro a
    have h1 := hp a
    have h2 := ih.2.count_eq a
    simp only [List.count_append] at h1 h2 ⊢
    omega
  | dealUser t dealer user d _ hd ih =>
    obtain ⟨c, hc, hwf1, hp, _⟩ := deal_conserve rand user t d ih.1 hd
    refine ⟨hwf1, ?_⟩
    have hcards : d.1.cards = user.cards ++ [c] := by rw [hc]; rfl
    rw [hcards]
    rw [List.perm_iff_count] at hp ⊢
    intro a
    have h1 := hp a
    have h2 := ih.2.count_eq a
    simp only [List.count_append] at h1 h2 ⊢
    omega
  | discard t dealer user b1 b2 _ ih =>
    refine ⟨ih.1, ?_⟩
    simp only [BlackjackHand.new, BlackjackHand.getCards, List.append_nil]
    rw [List.perm_iff_count]
    intro a
    have h2 := ih.2.count_eq a
    simp only [List.count_append] at h2 ⊢
    omega

/-! ## The shoe never runs dry -/

/-- Chaining keeps a result benign. -/
theorem benign_bind {α β : Type} (P : α → Prop) (Q : β → Prop) (x : Except Stop α)
    (f : α → Except Stop β) (hx : Benign P x) (hf : ∀ a, P a → Benign Q (f a)) :
    Benign Q (x >>= f) := by
  cases x with
  | error e => exact hx
  | ok a => exact hf a hx

/-- A draw in a state the session can go through, from a shoe that holds a card and with the
hands holding at least two cards fewer than the shoe as built, returns, leaves a card in the
shoe, and gives a hand with no more cards than its value. -/
theorem deal_safe (rand : Nat → Nat) (numDecks : Int) (s0 : Shoe)
    (hnew : Shoe.new numDecks = .ok s0) (hbase : ∀ c ∈ s0.cards, 1 ≤ c.value)
    (t : Table) (dealer user : BlackjackHand) (hr : Reachable rand numDecks t dealer user)
    (hne : t.shoe.cards ≠ [])
    (hsmall : dealer.cards.length + user.cards.length + 2 ≤ s0.cards.length)
    (hand : BlackjackHand) (hh : hand = dealer ∨ hand = user) :
    ∃ d, dealCardAndRefillShoeIfEmpty rand hand t = .ok d ∧ d.2.shoe.cards ≠ [] ∧
      (d.1.cards.length : Int) ≤ d.1.value ∧ d.1.cards.length = hand.cards.length + 1 := by
  obtain ⟨hwf, hperm⟩ := reachable_conserved rand numDecks s0 hnew t dealer user hr
  rcases deal_mem rand hand t with he | ⟨c0, d, hok, _, _, _⟩
  · rcases List.eq_nil_or_concat t.shoe.cards with hn | ⟨rest, c, hc⟩
    · exact absurd hn hne
    · rw [List.concat_eq_append] at hc
      rw [deal_eq rand hand t rest c hc] at he
      exact absurd he (by simp)
  · obtain ⟨c, hc, _, hp, hlast⟩ := deal_conserve rand hand t d hwf hok
    have hlen := hperm.length_eq
    simp only [List.length_append] at hlen
    have hmemc : c ∈ s0.cards := by
      have h1 : c ∈ t.shoe.cards ++ t.discardedCards :=
        hp.mem_iff.mp (by simp)
      exact hperm.mem_iff.mp (by
        simp only [List.mem_append] at h1 ⊢
        rcases h1 with h1 | h1
        · exact Or.inl (Or.inl (Or.inl h1))
        · exact Or.inl (Or.inl (Or.inr h1)))
    have hmemh : ∀ x ∈ hand.cards, x ∈ s0.cards := by
      intro x hx
      apply hperm.mem_iff.mp
      simp only [List.mem_append]
      rcases hh with h | h
      · exact Or.inl (Or.inr (h ▸ hx))
      · exact Or.inr (h ▸ hx)
    have hv : ∀ x ∈ hand.cards ++ [c], 1 ≤ x.value := by
      intro x hx
      rcases List.mem_append.mp hx with h | h
      · exact hbase x (hmemh x h)
      · rw [List.mem_singleton.mp h]
        exact hbase c hmemc
    obtain ⟨a1, _, _, a4, a5⟩ := addCard_value hand c hv
    refine ⟨d, hok, ?_, ?_, ?_⟩
    · intro he
      have := hlast he
      omega
    · rw [hc, a1]
      omega
    · rw [hc, a1]
      simp

/-- The opening draws at a safe table return and leave a safe round in which the dealer holds
one card. -/
theorem initialDeal_safe {M : Type} (rand : Nat → Nat) (numDecks : Int) (s0 : Shoe)
    (hnew : Shoe.new numDecks = .ok s0) (hbase : ∀ c ∈ s0.cards, 1 ≤ c.value)
    (hN : 52 ≤ s0.cards.length) (t : Table) (tw bet : M) (us ds : Bool)
    (ht : TableSafe rand numDecks t) :
    ∃ r1, initialDeal rand (Round.start t tw bet us ds) = .ok r1 ∧
      RoundSafe rand numDecks r1 ∧ r1.dealerHand.cards.length = 1 := by
  have hr0 := ht.1 ds us
  obtain ⟨d, hd, hdne, hdv, hdl⟩ := deal_safe rand numDecks s0 hnew hbase t _ _ hr0 ht.2
    (by simp [BlackjackHand.new]; omega) (BlackjackHand.new ds) (Or.inl rfl)
  have hr1 := Reachable.dealDealer t _ _ d hr0 hd
  have hdl1 : d.1.cards.length = 1 := by simpa [BlackjackHand.new] using hdl
  obtain ⟨u1, hu1, hu1ne, _, hu1l⟩ := deal_safe rand numDecks s0 hnew hbase d.2 _ _ hr1 hdne
    (by simp [BlackjackHand.new, hdl1]; omega) (BlackjackHand.new us) (Or.inr rfl)
  have hr2 := Reachable.dealUser d.2 _ _ u1 hr1 hu1
  have hu1l1 : u1.1.cards.length = 1 := by simpa [BlackjackHand.new] using hu1l
  obtain ⟨u2, hu2, hu2ne, hu2v, _⟩ := deal_safe rand numDecks s0 hnew hbase u1.2 _ _ hr2 hu1ne
    (by simp [hu1l1, hdl1]; omega) u1.1 (Or.inr rfl)
  have hr3 := Reachable.dealUser u1.2 _ _ u2 hr2 hu2
  refine ⟨{ Round.start t tw bet us ds with dealerHand := d.1, userHand := u2.1, table := u2.2 },
    ?_, ⟨hr3, hu2ne, hdv, hu2v⟩, hdl1⟩
  have e1 : dealCardAndRefillShoeIfEmpty rand (Round.start t tw bet us ds).dealerHand
      (Round.start t tw bet us ds).table = .ok d := hd
  have e2 : dealCardAndRefillShoeIfEmpty rand (Round.start t tw bet us ds).userHand d.2 =
      .ok u1 := hu1
  simp only [initialDeal, bind, Except.bind, e1, e2, hu2, pure, Except.pure]

/-- The player's loop in a safe round ends in a safe round or waits for input. -/
theorem playerLoop_safe {M : Type} [Sub M] [Mul M] [OfNat M 2] (rand : Nat → Nat)
    (numDecks : Int) (s0 : Shoe) (hnew : Shoe.new numDecks = .ok s0)
    (hbase : ∀ c ∈ s0.cards, 1 ≤ c.value) (hN : 52 ≤ s0.cards.length) :
    ∀ (inputs : List String) (r : Round M), RoundSafe rand numDecks r →
      r.dealerHand.cards.length = 1 →
      Benign (fun p : Round M × List String =>
          RoundSafe rand numDecks p.1 ∧ p.1.dealerHand.cards.length = 1)
        (playerLoop rand r inputs) := by
  intro inputs
  induction inputs with
  | nil =>
    intro r hs h1
    rw [playerLoop]
    split
    · exact ⟨hs, h1⟩
    · split
      · exact ⟨hs, h1⟩
      · exact Or.inl rfl
  | cons x rest ih =>
    intro r hs h1
    rw [playerLoop]
    simp only [HAND_VALUE_LIMIT]
    split
    · exact ⟨hs, h1⟩
    · split
      · exact ⟨hs, h1⟩
      · rename_i hne hngt
        have hsmall : r.dealerHand.cards.length + r.userHand.cards.length + 2 ≤
            s0.cards.length := by
          have := hs.2.2.2
          omega
        obtain ⟨d, hd, hdne, hdv, _⟩ := deal_safe rand numDecks s0 hnew hbase r.table _ _
          hs.1 hs.2.1 hsmall r.userHand (Or.inr rfl)
        have hr1 := Reachable.dealUser r.table _ _ d hs.1 hd
        split
        · simp only [bind, Except.bind, hd]
          exact ih _ ⟨hr1, hdne, hs.2.2.1, hdv⟩ h1
        · split
          · exact ⟨hs, h1⟩
          · split
            · simp only [bind, Except.bind, hd]
              split
              · exact ⟨⟨hr1, hdne, hs.2.2.1, hdv⟩, h1⟩
              · exact ⟨⟨hr1, hdne, hs.2.2.1, hdv⟩, h1⟩
            · exact ih r hs h1

/-- The dealer's loop in a safe round, where a user who is not bust has at most 21, ends in a
safe round or runs out of fuel. -/
theorem dealerLoop_safe {M : Type} (rand : Nat → Nat) (numDecks : Int) (s0 : Shoe)
    (hnew : Shoe.new numDecks = .ok s0) (hbase : ∀ c ∈ s0.cards, 1 ≤ c.value)
    (hN : 52 ≤ s0.cards.length) :
    ∀ (fuel : Nat) (r : Round M), RoundSafe rand numDecks r →
      (r.bust = false → r.userHand.value ≤ 21) →
      Benign (fun r1 : Round M => RoundSafe rand numDecks r1) (dealerLoop rand fuel r) := by
  intro fuel
  induction fuel with
  | zero =>
    intro r hs _
    rw [dealerLoop]
    split
    · exact Or.inr rfl
    · exact hs
  | succ n ih =>
    intro r hs hu
    rw [dealerLoop]
    split
    · rename_i hm
      obtain ⟨hb, hcond⟩ := (dealerMustDraw_iff r).mp hm
      have hsmall : r.dealerHand.cards.length + r.userHand.cards.length + 2 ≤
          s0.cards.length := by
        have h1 := hs.2.2.1
        have h2 := hs.2.2.2
        have h3 := hu hb
        rcases hcond with h | ⟨h, _⟩ <;> omega
      obtain ⟨d, hd, hdne, hdv, _⟩ := deal_safe rand numDecks s0 hnew hbase r.table _ _
        hs.1 hs.2.1 hsmall r.dealerHand (Or.inl rfl)
      have hr1 := Reachable.dealDealer r.table _ _ d hs.1 hd
      simp only [bind, Except.bind, hd]
      exact ih _ ⟨hr1, hdne, hdv, hs.2.2.2⟩ hu
    · exact hs

/-- A round at a safe table ends in a safe round, or waits for input, or runs out of fuel. -/
theorem playRound_safe {M : Type} [Add M] [Sub M] [Mul M] [OfScientific M] [OfNat M 2]
    (rand : Nat → Nat) (numDecks : Int) (s0 : Shoe) (hnew : Shoe.new numDecks = .ok s0)
    (hbase : ∀ c ∈ s0.cards, 1 ≤ c.value) (hN : 52 ≤ s0.cards.length) (fuel : Nat) (t : Table)
    (tw bet : M) (us ds : Bool) (inputs : List String) (ht : TableSafe rand numDecks t) :
    Benign (fun p : Round M × List String => RoundSafe rand numDecks p.1)
      (playRound rand fuel t tw bet us ds inputs) := by
  obtain ⟨r1, hd, hs1, hl1⟩ := initialDeal_safe rand numDecks s0 hnew hbase hN t tw bet us ds ht
  have hb1 : r1.bust = false := (initialDeal_ok rand _ r1 hd).2.2.2.1
  have hbj1 : r1.blackjack = false := (initialDeal_ok rand _ r1 hd).2.2.1
  unfold playRound
  simp only [bind, Except.bind, hd, pure, Except.pure]
  by_cases h21 : r1.userHand.value = 21
  · rw [(blackjackCheck_fields r1).2.2.2.2.2 h21]
    simp only [Bool.not_true, Bool.false_eq_true, if_false]
    exact hs1
  · have hbc : blackjackCheck r1 = r1 := by
      unfold blackjackCheck
      rw [if_neg (by simpa [HAND_VALUE_LIMIT] using h21)]
    rw [hbc]
    simp only [hbj1, Bool.not_false, if_true]
    have hp := playerLoop_safe rand numDecks s0 hnew hbase hN inputs r1 hs1 hl1
    cases hpl : playerLoop rand r1 inputs with
    | error e =>
      rw [hpl] at hp
      exact hp
    | ok p =>
      rw [hpl] at hp
      simp only
      have hiff := (playerLoop_ok rand inputs r1 p hpl hb1).2.2.1
      have hu : p.1.bust = false → p.1.userHand.value ≤ 21 := by
        intro hb
        by_contra hc
        have := hiff.mpr (by omega)
        rw [hb] at this
        exact absurd this (by simp)
      have hdl := dealerLoop_safe rand numDecks s0 hnew hbase hN fuel p.1 hp.1 hu
      cases hdd : dealerLoop rand fuel p.1 with
      | error e =>
        rw [hdd] at hdl
        exact hdl
      | ok r4 =>
        rw [hdd] at hdl
        have hf := payout_fields r4
        show RoundSafe rand numDecks (payout r4)
        unfold RoundSafe
        rw [hf.2.2.2.2.2, hf.2.2.2.2.1, hf.2.2.2.1]
        exact hdl

/-- Putting the hands of a safe round on the discard pile leaves a safe table. -/
theorem discardHands_safe {M : Type} (rand : Nat → Nat) (numDecks : Int) (r : Round M)
    (hs : RoundSafe rand numDecks r) : TableSafe rand numDecks (discardHands r) :=
  ⟨fun b1 b2 => Reachable.discard r.table r.dealerHand r.userHand b1 b2 hs.1, hs.2.1⟩

/-- A session at a safe table ends at a safe table, or waits for input, or runs out of fuel. -/
theorem playSession_safe {M : Type} [Add M] [Sub M] [Mul M] [OfScientific M] [OfNat M 2]
    (rand : Nat → Nat) (numDecks : Int) (s0 : Shoe) (hnew : Shoe.new numDecks = .ok s0)
    (hbase : ∀ c ∈ s0.cards, 1 ≤ c.value) (hN : 52 ≤ s0.cards.length) (fuel : Nat) :
    ∀ (rounds : List (RoundInput M)) (t : Table) (tw : M), TableSafe rand numDecks t →
      Benign (fun p : Table × M => TableSafe rand numDecks p.1)
        (playSession rand fuel t tw rounds) := by
  intro rounds
  induction rounds with
  | nil =>
    intro t tw ht
    exact ht
  | cons ri ris ih =>
    intro t tw ht
    rw [playSession]
    apply benign_bind (fun p : Round M × List String => RoundSafe rand numDecks p.1)
    · exact playRound_safe rand numDecks s0 hnew hbase hN fuel t tw ri.bet ri.userSoft
        ri.dealerSoft ri.lines ht
    · intro p hp
      exact ih _ _ (discardHands_safe rand numDecks p.1 hp)

/-- The shoe built for a deck count in range holds deck cards only, at least 52 of them. -/
theorem Shoe.new_base (numDecks : Int) (h1 : 1 ≤ numDecks) (hmax : numDecks ≤ 41297762) :
    ∃ s0, Shoe.new numDecks = .ok s0 ∧ (∀ c ∈ s0.cards, 1 ≤ c.value) ∧
      52 ≤ s0.cards.length ∧ (s0.cards.length : Int) = numDecks * 52 ∧
      ∀ n : Int, 1 ≤ n → n ≤ 52 → (s0.cards.count (deckCard n) : Int) = numDecks := by
  refine ⟨_, Shoe.new_of_fits numDecks h1 hmax, ?_, ?_, ?_, ?_⟩
  · intro c hc
    simp only [List.mem_map, List.mem_range] at hc
    obtain ⟨i, _, rfl⟩ := hc
    exact (deckCard_facts Card.default ((i : Int) % 52 + 1) (by omega) (by omega)).1
  · simp only [List.length_map, List.length_range]
    omega
  · simp only [List.length_map, List.length_range]
    omega
  · intro n hn1 hn52
    rw [count_fill numDecks.toNat n hn1 hn52]
    omega

/-- A session on a deck count in range starts at a safe table. -/
theorem start_safe (rand : Nat → Nat) (numDecks : Int) (s0 : Shoe)
    (hnew : Shoe.new numDecks = .ok s0) (hN : 52 ≤ s0.cards.length) :
    ∃ sh, s0.shuffle rand 0 = .ok sh ∧
      TableSafe rand numDecks { shoe := sh.1, discardedCards := [], randPos := sh.2 } := by
  have hwf := Shoe.new_wf numDecks s0 hnew
  refine ⟨_, shuffle_eq rand s0 0 hwf, ?_, ?_⟩
  · intro b1 b2
    exact Reachable.start s0 _ _ b1 b2 hnew (shuffle_eq rand s0 0 hwf)
  · intro he
    have := length_fisherYates (drawOffsets rand s0.cards.length 0 0 (s0.cards.length - 1))
      s0.cards
    simp only at he
    rw [he] at this
    simp only [List.length_nil] at this
    omega

/-- A whole session on a deck count in range ends at a safe table, or waits for input, or runs
out of fuel. -/
theorem runSession_safe {M : Type} [Add M] [Sub M] [Mul M] [OfScientific M] [OfNat M 2]
    [OfNat M 0] (rand : Nat → Nat) (fuel : Nat) (numDecks : Int) (h1 : 1 ≤ numDecks)
    (hmax : numDecks ≤ 41297762) (rounds : List (RoundInput M)) :
    Benign (fun p : Table × M => TableSafe rand numDecks p.1)
      (runSession rand fuel numDecks rounds) := by
  obtain ⟨s0, hnew, hbase, hN, _, _⟩ := Shoe.new_base numDecks h1 hmax
  obtain ⟨sh, hsh, hts⟩ := start_safe rand numDecks s0 hnew hN
  unfold runSession
  simp only [bind, Except.bind, hnew, hsh]
  exact playSession_safe rand numDecks s0 hnew hbase hN fuel rounds _ _ hts


/-- The player's loop stops without a result only for want of input or on an empty shoe. -/
theorem playerLoop_error {M : Type} [Sub M] [Mul M] [OfNat M 2] (rand : Nat → Nat) :
    ∀ (inputs : List String) (r : Round M) (e : Stop),
      playerLoop rand r inputs = .error e → e = .noInput ∨ e = .emptyShoe := by
  intro inputs
  induction inputs with
  | nil =>
    intro r e h
    rw [playerLoop] at h
    split at h
    · exact absurd h (by simp)
    · split at h
      · exact absurd h (by simp)
      · exact Or.inl (Except.error.inj h).symm
  | cons x rest ih =>
    intro r e h
    rw [playerLoop] at h
    split at h
    · exact absurd h (by simp)
    · split at h
      · exact absurd h (by simp)
      · split at h
        · simp only [bind, Except.bind] at h
          rcases deal_mem rand r.userHand r.table with he | ⟨c, d, hok, _⟩
          · rw [he] at h
            exact Or.inr (Except.error.inj h).symm
          · rw [hok] at h
            exact ih _ e h
        · split at h
          · exact absurd h (by simp)
          · split at h
            · simp only [bind, Except.bind] at h
              rcases deal_mem rand r.userHand r.table with he | ⟨c, d, hok, _⟩
              · rw [he] at h
                exact Or.inr (Except.error.inj h).symm
              · rw [hok] at h
                simp only at h
                split at h <;> exact absurd h (by simp)
            · exact ih r e h

/-- With fuel for 16 dealer draws, a round at a safe table returns unless it waits for input. -/
theorem playRound_fuel {M : Type} [Add M] [Sub M] [Mul M] [OfScientific M] [OfNat M 2]
    (rand : Nat → Nat) (numDecks : Int) (s0 : Shoe) (hnew : Shoe.new numDecks = .ok s0)
    (hbase : ∀ c ∈ s0.cards, 1 ≤ c.value) (hN : 52 ≤ s0.cards.length) (fuel : Nat)
    (hf : 16 ≤ fuel) (t : Table) (tw bet : M) (us ds : Bool) (inputs : List String)
    (ht : TableSafe rand numDecks t) (e : Stop)
    (he : playRound rand fuel t tw bet us ds inputs = .error e) : e = .noInput := by
  obtain ⟨r1, hd, hs1, hl1⟩ := initialDeal_safe rand numDecks s0 hnew hbase hN t tw bet us ds ht
  obtain ⟨_, _, hbj1, hb1, ⟨c, _, hdc⟩, _⟩ := initialDeal_ok rand _ r1 hd
  have hb1f : r1.bust = false := hb1
  have hbj1f : r1.blackjack = false := hbj1
  unfold playRound at he
  simp only [bind, Except.bind, hd, pure, Except.pure] at he
  by_cases h21 : r1.userHand.value = 21
  · rw [(blackjackCheck_fields r1).2.2.2.2.2 h21] at he
    simp at he
  · have hbc : blackjackCheck r1 = r1 := by
      unfold blackjackCheck
      rw [if_neg (by simpa [HAND_VALUE_LIMIT] using h21)]
    rw [hbc] at he
    simp only [hbj1f, Bool.not_false, if_true] at he
    have hp := playerLoop_safe rand numDecks s0 hnew hbase hN inputs r1 hs1 hl1
    cases hpl : playerLoop rand r1 inputs with
    | error e1 =>
      rw [hpl] at he hp
      have h1 : e1 = .noInput ∨ e1 = .outOfFuel := hp
      have h2 := playerLoop_error rand inputs r1 e1 hpl
      have he1 : e = e1 := (Except.error.inj he).symm
      rw [he1]
      rcases h1 with h | h
      · exact h
      · rcases h2 with h3 | h3
        · exact h3
        · rw [h] at h3
          exact absurd h3 (by decide)
    | ok p =>
      rw [hpl] at he hp
      simp only at he
      obtain ⟨hpd, _, hiff, _, _, _⟩ := playerLoop_ok rand inputs r1 p hpl hb1f
      have hs : RoundSafe rand numDecks p.1 := hp.1
      have hu : p.1.bust = false → p.1.userHand.value ≤ 21 := by
        intro hb
        by_contra hc
        have := hiff.mpr (by omega)
        rw [hb] at this
        exact absurd this (by simp)
      have hdl := dealerLoop_safe rand numDecks s0 hnew hbase hN fuel p.1 hs hu
      have hform : p.1.dealerHand = (Round.start t tw bet us ds).dealerHand.addCard c := by
        rw [hpd, hdc]
      have hperm := (reachable_conserved rand numDecks s0 hnew _ _ _ hs.1).2
      have hcards : p.1.dealerHand.cards = [c] := by rw [hform]; rfl
      have hv : ∀ x ∈ ((Round.start t tw bet us ds).dealerHand.cards ++ [c]) ++
          (p.1.table.shoe.cards ++ p.1.table.discardedCards), 1 ≤ x.value := by
        intro x hx
        apply hbase
        apply hperm.mem_iff.mp
        have hx2 : x = c ∨ x ∈ p.1.table.shoe.cards ∨ x ∈ p.1.table.discardedCards := by
          simpa [Round.start, BlackjackHand.new] using hx
        simp only [List.mem_append, hcards, List.mem_singleton]
        rcases hx2 with h | h | h
        · exact Or.inl (Or.inr h)
        · exact Or.inl (Or.inl (Or.inl h))
        · exact Or.inl (Or.inl (Or.inr h))
      have hc1 : 1 ≤ c.value := hv c (by simp)
      have hraw : rawSum p.1.dealerHand.cards = c.value := by rw [hcards]; simp [rawSum]
      obtain ⟨g1, g2, _⟩ := dealerLoop_bounded rand fuel p.1 _ c hform hv (by rw [hraw]; omega)
      cases hdd : dealerLoop rand fuel p.1 with
      | error e1 =>
        rw [hdd] at hdl
        have h1 : e1 = .noInput ∨ e1 = .outOfFuel := hdl
        have h2 := g2 e1 hdd
        rw [h2] at h1
        rcases h1 with h | h <;> exact absurd h (by decide)
      | ok r4 =>
        rw [hdd] at he
        exact absurd he (by simp)

/-- With fuel for 16 dealer draws, a session at a safe table returns unless it waits for
input. -/
theorem playSession_fuel {M : Type} [Add M] [Sub M] [Mul M] [OfScientific M] [OfNat M 2]
    (rand : Nat → Nat) (numDecks : Int) (s0 : Shoe) (hnew : Shoe.new numDecks = .ok s0)
    (hbase : ∀ c ∈ s0.cards, 1 ≤ c.value) (hN : 52 ≤ s0.cards.length) (fuel : Nat)
    (hf : 16 ≤ fuel) :
    ∀ (rounds : List (RoundInput M)) (t : Table) (tw : M) (e : Stop),
      TableSafe rand numDecks t → playSession rand fuel t tw rounds = .error e →
      e = .noInput := by
  intro rounds
  induction rounds with
  | nil =>
    intro t tw e _ he
    exact absurd he (by simp [playSession])
  | cons ri ris ih =>
    intro t tw e ht he
    rw [playSession] at he
    simp only [bind, Except.bind] at he
    have hsafe := playRound_safe rand numDecks s0 hnew hbase hN fuel t tw ri.bet ri.userSoft
      ri.dealerSoft ri.lines ht
    cases hp : playRound rand fuel t tw ri.bet ri.userSoft ri.dealerSoft ri.lines with
    | error e1 =>
      rw [hp] at he
      have := playRound_fuel rand numDecks s0 hnew hbase hN fuel hf t tw ri.bet ri.userSoft
        ri.dealerSoft ri.lines ht e1 hp
      rw [← (Except.error.inj he), this]
    | ok p =>
      rw [hp] at he hsafe
      exact ih _ _ e (discardHands_safe rand numDecks p.1 hsafe) he

/-- With fuel for 16 dealer draws, a whole session on a deck count in range returns unless it
waits for input. -/
theorem runSession_fuel {M : Type} [Add M] [Sub M] [Mul M] [OfScientific M] [OfNat M 2]
    [OfNat M 0] (rand : Nat → Nat) (fuel : Nat) (hf : 16 ≤ fuel) (numDecks : Int)
    (h1 : 1 ≤ numDecks) (hmax : numDecks ≤ 41297762) (rounds : List (RoundInput M)) (e : Stop)
    (he : runSession rand fuel numDecks rounds = .error e) : e = .noInput := by
  obtain ⟨s0, hnew, hbase, hN, _, _⟩ := Shoe.new_base numDecks h1 hmax
  obtain ⟨sh, hsh, hts⟩ := start_safe rand numDecks s0 hnew hN
  unfold runSession at he
  simp only [bind, Except.bind, hnew, hsh] at he
  exact playSession_fuel rand numDecks s0 hnew hbase hN fuel hf rounds _ _ e hts he

/-- C16, as stated, fails for a deck count whose product with 52 leaves the range of `int`: for
82595525 decks the shoe holds four cards; after the opening draws and one hit it is empty, the
discard pile is empty too, and the second hit draws from the empty shoe. -/
theorem session_overflow_draws_from_empty :
    (1 : Int) ≤ 82595525 ∧
      runSession (fun _ => 0) 16 82595525 [sampleRound ["hit", "hit"]] = .error .emptyShoe := by
  decide!

/-- C16 (amended): in every session started with 1 ≤ numDecks ≤ 41297762 (so that numDecks * 52
fits a 32-bit int), for every sequence of bets, input lines and random values, no draw is made
from an empty shoe: the session stops without a result only for want of input or of fuel (with
fuel for 16 dealer draws, only for want of input), and when it returns the shoe holds a card. The same holds of a round at any table the session
reaches between rounds, and there the two hands together hold fewer cards than the shoe as
built. -/
theorem session_never_draws_from_empty {M : Type} [Add M] [Sub M] [Mul M] [OfScientific M]
    [OfNat M 2] [OfNat M 0] (rand : Nat → Nat) (fuel : Nat) (numDecks : Int)
    (h1 : 1 ≤ numDecks) (hmax : numDecks ≤ 41297762) (rounds : List (RoundInput M)) :
    runSession rand fuel numDecks rounds ≠ .error .emptyShoe ∧
      (∀ e, runSession rand fuel numDecks rounds = .error e → e = .noInput ∨ e = .outOfFuel) ∧
      (16 ≤ fuel → ∀ e, runSession rand fuel numDecks rounds = .error e → e = .noInput) ∧
      (∀ t tw, runSession rand fuel numDecks rounds = .ok (t, tw) →
        t.shoe.cards ≠ [] ∧ TableSafe rand numDecks t) ∧
      (∀ (t : Table) (tw bet : M) (us ds : Bool) (lines : List String),
        TableSafe rand numDecks t →
        playRound rand fuel t tw bet us ds lines ≠ .error .emptyShoe ∧
          ∀ r rest, playRound rand fuel t tw bet us ds lines = .ok (r, rest) →
            r.table.shoe.cards ≠ [] ∧
              ((r.dealerHand.cards.length + r.userHand.cards.length : Nat) : Int) <
                numDecks * 52) := by
  have hrun := runSession_safe rand fuel numDecks h1 hmax rounds
  obtain ⟨s0, hnew, hbase, hN, hlen, _⟩ := Shoe.new_base numDecks h1 hmax
  refine ⟨?_, ?_, ?_, ?_, ?_⟩
  · intro he
    rw [he] at hrun
    rcases hrun with h | h <;> exact absurd h (by decide)
  · intro e he
    rw [he] at hrun
    exact hrun
  · intro hf e he
    exact runSession_fuel rand fuel hf numDecks h1 hmax rounds e he
  · intro t tw he
    rw [he] at hrun
    exact ⟨hrun.2, hrun⟩
  · intro t tw bet us ds lines ht
    have hp := playRound_safe rand numDecks s0 hnew hbase hN fuel t tw bet us ds lines ht
    constructor
    · intro he
      rw [he] at hp
      rcases hp with h | h <;> exact absurd h (by decide)
    · intro r rest he
      rw [he] at hp
      have hs : RoundSafe rand numDecks r := hp
      refine ⟨hs.2.1, ?_⟩
      have hperm := (reachable_conserved rand numDecks s0 hnew _ _ _ hs.1).2
      have hl := hperm.length_eq
      simp only [List.length_append] at hl
      have hpos : 0 < r.table.shoe.cards.length := List.length_pos.mpr hs.2.1
      omega

/-- Witness for C16 (amended): two rounds on one deck end with a result. -/
theorem session_never_draws_from_empty_witness :
    runSession (fun n => 7 * n + 3) 16 1
        [sampleRound ["hit", "stand"], sampleRound ["double down"]] ≠ .error .emptyShoe ∧
      (runSession (fun n => 7 * n + 3) 16 1
        [sampleRound ["hit", "stand"], sampleRound ["double down"]]).toBool = true :=
  ⟨(session_never_draws_from_empty (fun n => 7 * n + 3) 16 1 (by decide) (by decide)
      [sampleRound ["hit", "stand"], sampleRound ["double down"]]).1, by decide!⟩

/-- C19, as stated, fails for a deck count whose product with 52 leaves the range of `int`: the
session started with 82595525 decks holds four cards in all, the Ace of Spades once and the King
of Clubs not at all. -/
theorem session_overflow_card_counts :
    (1 : Int) ≤ 82595525 ∧
      runSession (fun _ => 0) 16 82595525 ([] : List (RoundInput ℚ)) =
        .ok ({ shoe := shoeOf [1, 2, 3, 4], discardedCards := [], randPos := 3 }, 0) ∧
      Reachable (fun _ => 0) 82595525
        { shoe := shoeOf [1, 2, 3, 4], discardedCards := [], randPos := 3 }
        (BlackjackHand.new false) (BlackjackHand.new false) ∧
      ((shoeOf [1, 2, 3, 4]).cards.count (deckCard 1) : Int) ≠ 82595525 ∧
      (shoeOf [1, 2, 3, 4]).cards.count (deckCard 52) = 0 :=
  ⟨by decide, by decide!,
    Reachable.start (shoeOf [1, 2, 3, 4]) (shoeOf [1, 2, 3, 4]) 3 false false (by decide!)
      (by decide!), by decide!, by decide!⟩

/-- C19 (amended): in a session started with 1 ≤ numDecks ≤ 41297762 (so that numDecks * 52 fits
a 32-bit int), in every state it can go through (the start, after each draw, after each end of
round) the shoe, the discard pile and the two hands together are a permutation of the shoe as
built, so hold each of the 52 cards exactly numDecks times, and the shoe, whose count matches its
vector, never holds more than numDecks * 52 cards. The states of `playRound` and `runSession`
are all states of that kind. -/
theorem cards_conserved {M : Type} [Add M] [Sub M] [Mul M] [OfScientific M] [OfNat M 2]
    [OfNat M 0] (rand : Nat → Nat) (numDecks : Int) (h1 : 1 ≤ numDecks)
    (hmax : numDecks ≤ 41297762) :
    ∃ s0, Shoe.new numDecks = .ok s0 ∧ (s0.cards.length : Int) = numDecks * 52 ∧
      (∀ (t : Table) (dealer user : BlackjackHand), Reachable rand numDecks t dealer user →
        (t.shoe.cards ++ t.discardedCards ++ dealer.getCards ++ user.getCards).Perm s0.cards ∧
          (∀ n : Int, 1 ≤ n → n ≤ 52 →
            ((t.shoe.cards ++ t.discardedCards ++ dealer.getCards ++ user.getCards).count
              (deckCard n) : Int) = numDecks) ∧
          t.shoe.getNumCards = (t.shoe.cards.length : Int) ∧
          t.shoe.getNumCards ≤ numDecks * 52) ∧
      (∀ (fuel : Nat) (rounds : List (RoundInput M)) (t : Table) (tw : M),
        runSession rand fuel numDecks rounds = .ok (t, tw) →
        ∀ b1 b2 : Bool,
          Reachable rand numDecks t (BlackjackHand.new b1) (BlackjackHand.new b2)) ∧
      (∀ (fuel : Nat) (t : Table) (tw bet : M) (us ds : Bool) (lines : List String)
        (r : Round M) (rest : List String), TableSafe rand numDecks t →
        playRound rand fuel t tw bet us ds lines = .ok (r, rest) →
        Reachable rand numDecks r.table r.dealerHand r.userHand ∧
          TableSafe rand numDecks (discardHands r)) := by
  obtain ⟨s0, hnew, hbase, hN, hlen, hcount⟩ := Shoe.new_base numDecks h1 hmax
  refine ⟨s0, hnew, hlen, ?_, ?_, ?_⟩
  · intro t dealer user hr
    obtain ⟨hwf, hperm⟩ := reachable_conserved rand numDecks s0 hnew t dealer user hr
    refine ⟨hperm, ?_, hwf, ?_⟩
    · intro n hn1 hn52
      have := hperm.count_eq (deckCard n)
      simp only [BlackjackHand.getCards]
      rw [this]
      exact hcount n hn1 hn52
    · have hl := hperm.length_eq
      simp only [List.length_append] at hl
      show t.shoe.numCards ≤ numDecks * 52
      omega
  · intro fuel rounds t tw he
    have hrun := runSession_safe (M := M) rand fuel numDecks h1 hmax rounds
    rw [he] at hrun
    exact hrun.1
  · intro fuel t tw bet us ds lines r rest ht he
    have hp := playRound_safe rand numDecks s0 hnew hbase hN fuel t tw bet us ds lines ht
    rw [he] at hp
    have hs : RoundSafe rand numDecks r := hp
    exact ⟨hs.1, discardHands_safe rand numDecks r hs⟩

/-- Witness for C19 (amended) with one deck: at the start of the session the table holds 52
cards, the Four of Hearts once. -/
theorem cards_conserved_witness :
    ∃ (s0 : Shoe) (t : Table), Shoe.new 1 = .ok s0 ∧ (s0.cards.length : Int) = 1 * 52 ∧
      Reachable (fun n => n) 1 t (BlackjackHand.new false) (BlackjackHand.new false) ∧
      ((t.shoe.cards ++ t.discardedCards ++ (BlackjackHand.new false).getCards ++
        (BlackjackHand.new false).getCards).count (deckCard 17) : Int) = 1 := by
  obtain ⟨s0, h, hl, hreach, _, _⟩ :=
    cards_conserved (M := ℚ) (fun n => n) 1 (by decide) (by decide)
  obtain ⟨sh, _, hts⟩ := start_safe (fun n => n) 1 s0 h (by omega)
  exact ⟨s0, _, h, hl, hts.1 false false,
    (hreach _ _ _ (hts.1 false false)).2.1 17 (by decide) (by decide)⟩


/-! ## The shuffle reaches every arrangement exactly once -/

/-- The offsets drawn for the last `k + 1` positions are offsets `Shoe::shuffle` can draw. -/
theorem drawOffsets_valid (rand : Nat → Nat) (n : Nat) :
    ∀ (k i pos : Nat), n - i = k + 1 → validOffsets (k + 1) (drawOffsets rand n i pos k) := by
  intro k
  induction k with
  | zero =>
    intro i pos _
    simp [drawOffsets, validOffsets]
  | succ k ih =>
    intro i pos hn
    simp only [drawOffsets, validOffsets]
    refine ⟨by omega, ?_, ?_⟩
    · rw [hn]
      exact Nat.mod_lt _ (by omega)
    · exact ih (i + 1) (pos + 1) (by omega)

/-- The offsets drawn by a whole shuffle of `n` cards are offsets for `n` cards. -/
theorem drawOffsets_valid_all (rand : Nat → Nat) (n pos : Nat) :
    validOffsets n (drawOffsets rand n 0 pos (n - 1)) := by
  cases n with
  | zero => simp [drawOffsets, validOffsets]
  | succ m =>
    have := drawOffsets_valid rand (m + 1) m 0 pos (by omega)
    simpa using this

/-- The `j`-th offset drawn is `rand() % (numCards - i)` at position `i`, `j` places on. -/
theorem drawOffsets_getElem? (rand : Nat → Nat) (n : Nat) :
    ∀ (k i pos j : Nat), j < k →
      (drawOffsets rand n i pos k)[j]? = some (rand (pos + j) % (n - (i + j))) := by
  intro k
  induction k with
  | zero =>
    intro i pos j hj
    omega
  | succ k ih =>
    intro i pos j hj
    cases j with
    | zero => simp [drawOffsets]
    | succ j =>
      simp only [drawOffsets, List.getElem?_cons_succ]
      rw [ih (i + 1) (pos + 1) j (by omega)]
      congr 2
      · congr 1
        omega
      · omega

/-- An exchange of the first entry with entry `o` puts entry `o` first. -/
theorem swapAt_zero {α : Type} (l : List α) (o : Nat) (ho : o < l.length) :
    ∃ t, swapAt l 0 o = l[o] :: t := by
  cases l with
  | nil => simp at ho
  | cons a rest =>
    cases o with
    | zero => exact ⟨rest, by simp [swapAt]⟩
    | succ o =>
      have ho1 : o < rest.length := by simpa using ho
      refine ⟨rest.set o a, ?_⟩
      simp [swapAt, List.getElem?_eq_getElem ho1]

/-- No offsets fit unless there are two cards. -/
theorem validOffsets_small (m : Nat) (os : List Nat) (hm : m ≤ 1) (h : validOffsets m os) :
    os = [] := by
  cases os with
  | nil => rfl
  | cons o os =>
    simp only [validOffsets] at h
    omega

/-- On distinct entries the walk reaches every arrangement from exactly one sequence of
offsets. -/
theorem fisherYates_bij {α : Type} [DecidableEq α] :
    ∀ (m : Nat) (l p : List α), l.length = m → l.Nodup → p.Perm l →
      ∃! os, validOffsets m os ∧ fisherYates os l = p := by
  intro m
  induction m with
  | zero =>
    intro l p hl _ hp
    have hl0 : l = [] := List.eq_nil_of_length_eq_zero hl
    subst hl0
    have hp0 : p = [] := hp.eq_nil
    subst hp0
    refine ⟨[], ⟨by simp [validOffsets], rfl⟩, ?_⟩
    intro os hos
    exact validOffsets_small 0 os (by omega) hos.1
  | succ k ih =>
    intro l p hl hnd hp
    by_cases hk : k = 0
    · subst hk
      refine ⟨[], ⟨by simp [validOffsets], ?_⟩, ?_⟩
      · obtain ⟨a, rfl⟩ := List.length_eq_one.mp hl
        simp only [fisherYates]
        exact (List.perm_singleton.mp hp).symm
      · intro os hos
        exact validOffsets_small 1 os (by omega) hos.1
    · cases p with
      | nil =>
        have := hp.length_eq
        simp only [List.length_nil] at this
        omega
      | cons b t =>
        have hb : b ∈ l := hp.mem_iff.mp (List.mem_cons_self b t)
        obtain ⟨o, ho, hob⟩ := List.getElem_of_mem hb
        obtain ⟨rest, hsw⟩ := swapAt_zero l o ho
        rw [hob] at hsw
        have hperm : (b :: rest).Perm l := hsw ▸ swapAt_perm l 0 o
        have hrest : t.Perm rest := (hp.trans hperm.symm).cons_inv
        have hnd1 : rest.Nodup := (List.nodup_cons.mp (hperm.nodup_iff.mpr hnd)).2
        have hlen1 : rest.length = k := by
          have := hperm.length_eq
          simp only [List.length_cons] at this
          omega
        obtain ⟨os1, ⟨hv1, hf1⟩, huniq⟩ := ih rest t hlen1 hnd1 hrest
        refine ⟨o :: os1, ⟨⟨by omega, by omega, by simpa using hv1⟩, ?_⟩, ?_⟩
        · simp only [fisherYates, hsw, hf1]
        · intro os2 ⟨hv2, hf2⟩
          cases os2 with
          | nil =>
            simp only [validOffsets] at hv2
            omega
          | cons o2 os3 =>
            simp only [validOffsets] at hv2
            obtain ⟨rest2, hsw2⟩ := swapAt_zero l o2 (by omega)
            simp only [fisherYates, hsw2, List.cons.injEq] at hf2
            have ho2 : o2 = o := by
              have ho2lt : o2 < l.length := by omega
              have h1 : l[o2] = l[o] := by rw [hf2.1, hob]
              exact (List.Nodup.getElem_inj_iff hnd).mp h1
            subst ho2
            rw [hob] at hsw2
            have hr2 : rest2 = rest := by
              have := hsw2.symm.trans hsw
              exact (List.cons.inj this).2
            subst hr2
            have := huniq os3 ⟨by simpa using hv2.2.2, hf2.2⟩
            rw [this]

/-- An exchange commutes with renaming the entries. -/
theorem swapAt_map {α β : Type} (f : α → β) (l : List α) (i j : Nat) :
    swapAt (l.map f) i j = (swapAt l i j).map f := by
  unfold swapAt
  simp only [List.getElem?_map]
  cases l[i]? with
  | none => rfl
  | some a =>
    cases l[j]? with
    | none => rfl
    | some b => simp [List.map_set]

/-- The walk commutes with renaming the entries: it acts on positions. -/
theorem fisherYates_map {α β : Type} (f : α → β) (os : List Nat) (l : List α) :
    fisherYates os (l.map f) = (fisherYates os l).map f := by
  induction os generalizing l with
  | nil => rfl
  | cons o os ih =>
    simp only [fisherYates, swapAt_map]
    cases swapAt l 0 o with
    | nil => rfl
    | cons b t => simp [ih]

/-- A vector is its positions, each replaced by the entry it holds. -/
theorem map_getD_range (l : List Card) :
    (List.range l.length).map (fun k => l.getD k Card.default) = l := by
  apply List.ext_getElem (by simp)
  intro n h1 h2
  simp [List.getD_eq_getElem?_getD, List.getElem?_eq_getElem h2]

/-- There are `m!` sequences of offsets for `m` cards. -/
theorem length_allOffsets (m : Nat) : (allOffsets m).length = m.factorial := by
  induction m with
  | zero => rfl
  | succ m ih =>
    by_cases hm : m = 0
    · subst hm
      rfl
    · have hfun : (List.length ∘ fun o : Nat => List.map (fun os => o :: os) (allOffsets m)) =
          fun _ => m.factorial := by
        funext o
        simp [ih]
      simp only [allOffsets, hm, if_false, List.length_flatMap, hfun]
      simp [Nat.factorial_succ]

/-- The listed sequences are exactly the sequences of offsets that fit. -/
theorem mem_allOffsets (m : Nat) (os : List Nat) : os ∈ allOffsets m ↔ validOffsets m os := by
  induction m generalizing os with
  | zero =>
    simp only [allOffsets, List.mem_singleton]
    constructor
    · rintro rfl
      simp [validOffsets]
    · exact validOffsets_small 0 os (by omega)
  | succ m ih =>
    by_cases hm : m = 0
    · subst hm
      simp only [allOffsets, if_true, List.mem_singleton]
      constructor
      · rintro rfl
        simp [validOffsets]
      · exact validOffsets_small 1 os (by omega)
    · simp only [allOffsets, hm, if_false, List.mem_flatMap, List.mem_range, List.mem_map]
      constructor
      · rintro ⟨o, ho, os1, hos1, rfl⟩
        exact ⟨by omega, ho, by simpa using (ih os1).mp hos1⟩
      · intro h
        cases os with
        | nil =>
          simp only [validOffsets] at h
          omega
        | cons o os1 =>
          simp only [validOffsets] at h
          exact ⟨o, h.2.1, os1, (ih os1).mpr (by simpa using h.2.2), rfl⟩

/-- No sequence of offsets is listed twice. -/
theorem nodup_allOffsets (m : Nat) : (allOffsets m).Nodup := by
  induction m with
  | zero => simp [allOffsets]
  | succ m ih =>
    by_cases hm : m = 0
    · subst hm
      simp [allOffsets]
    · simp only [allOffsets, hm, if_false]
      rw [List.nodup_flatMap]
      constructor
      · intro o _
        exact ih.map (fun a b h => (List.cons.inj h).2)
      · have hr : (List.range (m + 1)).Pairwise (fun a b => a ≠ b) := List.nodup_range (m + 1)
        refine hr.imp ?_
        intro a b hab
        simp only [Function.onFun]
        intro x hx1 hx2
        obtain ⟨y1, _, rfl⟩ := List.mem_map.mp hx1
        obtain ⟨y2, _, h2⟩ := List.mem_map.mp hx2
        exact hab (List.cons.inj h2).1.symm

/-- A list without repetition in which one entry, and only that one, passes a test keeps exactly
one entry under the test. -/
theorem length_filter_unique {α : Type} (l : List α) (q : α → Bool) (a : α) (hnd : l.Nodup)
    (ha : a ∈ l) (hq : q a = true) (huniq : ∀ x ∈ l, q x = true → x = a) :
    (l.filter q).length = 1 := by
  have hmem : a ∈ l.filter q := List.mem_filter.mpr ⟨ha, hq⟩
  have hnd2 : (l.filter q).Nodup := hnd.filter q
  have hall : ∀ x ∈ l.filter q, x = a := fun x hx =>
    huniq x (List.mem_filter.mp hx).1 (List.mem_filter.mp hx).2
  cases hf : l.filter q with
  | nil => rw [hf] at hmem; exact absurd hmem (List.not_mem_nil a)
  | cons x xs =>
    rw [hf] at hnd2 hall
    cases xs with
    | nil => rfl
    | cons y ys =>
      have hx := hall x (List.mem_cons_self _ _)
      have hy := hall y (List.mem_cons_of_mem _ (List.mem_cons_self _ _))
      have := (List.nodup_cons.mp hnd2).1
      rw [hx, hy] at this
      exact absurd (List.mem_cons_self a ys) this

/-- C12: `Shoe::shuffle` on n cards exchanges, at each position i = 0..n-2, the entry with the
one at i + (rand() mod (n - i)), which lies in [i, n-1]; the arrangement of the cards is the
arrangement of the positions 0..n-1 under the walk over these offsets; every sequence of offsets
o_i < n - i arranges the positions as a permutation, and every permutation comes from exactly one
such sequence; there are n! of them, listed once each in `allOffsets n`, exactly one of which
gives any chosen permutation, so offsets that are independent and uniform give each permutation
with probability 1/n!. -/
theorem shuffle_unbiased (rand : Nat → Nat) (s : Shoe) (pos n : Nat)
    (hwf : s.numCards = (s.cards.length : Int)) (hn : s.cards.length = n) :
    (∀ i, i < n - 1 →
        (drawOffsets rand n 0 pos (n - 1))[i]? = some (rand (pos + i) % (n - i)) ∧
          i ≤ i + rand (pos + i) % (n - i) ∧ i + rand (pos + i) % (n - i) ≤ n - 1) ∧
      validOffsets n (drawOffsets rand n 0 pos (n - 1)) ∧
      s.shuffle rand pos =
        .ok ({ numCards := s.numCards
               cards := (fisherYates (drawOffsets rand n 0 pos (n - 1)) (List.range n)).map
                 (fun k => s.cards.getD k Card.default) },
          pos + (n - 1)) ∧
      (∀ os, validOffsets n os → (fisherYates os (List.range n)).Perm (List.range n)) ∧
      (∀ p : List Nat, p.Perm (List.range n) →
        ∃! os, validOffsets n os ∧ fisherYates os (List.range n) = p) ∧
      (allOffsets n).length = n.factorial ∧ (allOffsets n).Nodup ∧
      (∀ os, os ∈ allOffsets n ↔ validOffsets n os) ∧
      (∀ p : List Nat, p.Perm (List.range n) →
        ((allOffsets n).filter
          (fun os => decide (fisherYates os (List.range n) = p))).length = 1) := by
  have hbij : ∀ p : List Nat, p.Perm (List.range n) →
      ∃! os, validOffsets n os ∧ fisherYates os (List.range n) = p := fun p hp =>
    fisherYates_bij n (List.range n) p (List.length_range n) (List.nodup_range n) hp
  refine ⟨?_, drawOffsets_valid_all rand n pos, ?_, fun os _ => fisherYates_perm os _, hbij,
    length_allOffsets n, nodup_allOffsets n, mem_allOffsets n, ?_⟩
  · intro i hi
    have h1 := drawOffsets_getElem? rand n (n - 1) 0 pos i hi
    simp only [Nat.zero_add] at h1
    have h2 : rand (pos + i) % (n - i) < n - i := Nat.mod_lt _ (by omega)
    exact ⟨h1, by omega, by omega⟩
  · rw [shuffle_eq rand s pos hwf, hn, ← fisherYates_map]
    have := map_getD_range s.cards
    rw [hn] at this
    rw [this]
  · intro p hp
    obtain ⟨os0, ⟨hv0, hf0⟩, huniq⟩ := hbij p hp
    apply length_filter_unique _ _ os0 (nodup_allOffsets n) ((mem_allOffsets n os0).mpr hv0)
      (by simpa using hf0)
    intro x hx hq
    exact huniq x ⟨(mem_allOffsets n x).mp hx, by simpa using hq⟩

/-- Witness for C12: five cards, random values 7, 8, 9, 10; the offsets are 2, 0, 0, 0. -/
theorem shuffle_unbiased_witness :
    validOffsets 5 (drawOffsets (fun k => k + 7) 5 0 0 (5 - 1)) ∧
      drawOffsets (fun k => k + 7) 5 0 0 (5 - 1) = [2, 0, 0, 0] ∧
      (shoeOf [1, 2, 3, 4, 5]).shuffle (fun k => k + 7) 0 = .ok (shoeOf [3, 2, 1, 4, 5], 4) ∧
      (allOffsets 5).length = 120 :=
  ⟨(shuffle_unbiased (fun k => k + 7) (shoeOf [1, 2, 3, 4, 5]) 0 5 (by decide) (by decide)).2.1,
    by decide, by decide!, by decide!⟩

end BlackjackSim
